import Mathlib

/-!
Verification development for the annotation subsystem of the mol-view-spec
frontend, file annotation-prop.ts and its helpers.

The TypeScript source is embedded shallowly: JSON values become an inductive
`Json`, parsed CIF files become explicit structures, JavaScript exceptions
become `Except`, mutable per-instance caches become explicit state passing.
Definitions follow the source file annotation-prop.ts; helpers that are not
among the provided sources (selections.ts, indexing.ts, atom-ranges.ts,
schemas.ts) are modelled from the specification and marked as such.
-/

set_option maxRecDepth 4000

/-- Shallow embedding of a parsed JSON value (result of JSON.parse). -/
inductive Json where
  | null
  | bool (b : Bool)
  | num (n : Int)
  | str (s : String)
  | arr (items : List Json)
  | obj (entries : List (String × Json))
deriving Repr, BEq

/-- Lookup of a key in an association list (JavaScript object property read). -/
def lookupByKey {α : Type} (key : String) : List (String × α) → Option α
  | [] => none
  | (k, v) :: rest => if k = key then some v else lookupByKey key rest

/-- Property access on a JSON value: an object yields the value stored under the
key, anything else yields undefined (modelled as none). Element access on
arrays or strings via numeric string keys is not modelled; annotation field
names are identifiers. -/
def jsGet (j : Json) (key : String) : Option Json :=
  match j with
  | .obj kvs => lookupByKey key kvs
  | _ => none

/-- Indexing a JSON value with a possibly negative index: an array within range
yields the element, everything else yields undefined (modelled as none). -/
def jsIndex (j : Json) (i : Int) : Option Json :=
  match j with
  | .arr xs => if 0 ≤ i then xs.get? i.toNat else none
  | _ => none

/-- Nullish coalescing `x ?? fallbk` applied to a JavaScript property read:
undefined and null are replaced by the fallback. -/
def coalesce (x : Option Json) (fallbk : Json) : Json :=
  match x with
  | some .null => fallbk
  | some v => v
  | none => fallbk

/-- Embedding of getValueFromJson from annotation-prop.ts: for an array source
take element rowIndex (with fallback to an empty object) and read the field;
otherwise read the column under the field name (with fallback to an empty
array) and index it. Property access on null throws in JavaScript, embedded
as Except.error. -/
def getValueFromJson (rowIndex : Int) (fieldName : String) (data : Json) :
    Except String (Option Json) :=
  match data with
  | .arr js => .ok (jsGet (coalesce (jsIndex (.arr js) rowIndex) (.obj [])) fieldName)
  | .null => .error "TypeError: cannot read properties of null"
  | js => .ok (jsIndex (coalesce (jsGet js fieldName) (.arr [])) rowIndex)

/-- Value kind of a CIF column entry (mol* Column.ValueKind): Present, or the
markers NotPresent for a period and Unknown for a question mark. -/
inductive CifValueKind where
  | Present
  | NotPresent
  | Unknown
deriving Repr, BEq, DecidableEq

/-- One column of a parsed CIF category: a value kind and a string value for
each row. -/
structure CifField where
  kinds : List CifValueKind
  values : List String
deriving Repr, DecidableEq

/-- Value kind of a column at a row index; out-of-range indices (including -1)
read as NotPresent. -/
def CifField.valueKind (f : CifField) (i : Int) : CifValueKind :=
  if 0 ≤ i then f.kinds.getD i.toNat .NotPresent else .NotPresent

/-- String value of a column at a row index; out-of-range indices read as the
empty string. -/
def CifField.strAt (f : CifField) (i : Int) : String :=
  if 0 ≤ i then f.values.getD i.toNat "" else ""

/-- One category of a parsed CIF block: named columns and a row count. -/
structure CifCategory where
  name : String
  fields : List (String × CifField)
  rowCount : Nat
deriving Repr, DecidableEq

/-- Embedding of CifCategory.getField: lookup of a column by name. -/
def CifCategory.getField (c : CifCategory) (name : String) : Option CifField :=
  lookupByKey name c.fields

/-- One block of a parsed CIF file: a header and named categories (in
declaration order). -/
structure CifBlock where
  header : String
  categories : List (String × CifCategory)
deriving Repr, DecidableEq

/-- A parsed CIF file: a list of blocks. -/
structure CifFile where
  blocks : List CifBlock
deriving Repr, DecidableEq

/-- Embedding of getValueFromCif from annotation-prop.ts: undefined when the
column is absent or its value kind at the row is not Present, otherwise the
string value. -/
def getValueFromCif (rowIndex : Int) (fieldName : String) (data : CifCategory) :
    Option String :=
  match data.getField fieldName with
  | none => none
  | some column =>
      if column.valueKind rowIndex ≠ .Present then none
      else some (column.strAt rowIndex)

/-- Allowed values for the annotation format parameter. -/
inductive AnnotationFormat where
  | json
  | cif
  | bcif
deriving Repr, DecidableEq

/-- String form of a format tag, used to build deduplication keys. -/
def AnnotationFormat.key : AnnotationFormat → String
  | .json => "json"
  | .cif => "cif"
  | .bcif => "bcif"

/-- Selection granularity of an annotation (schemas.ts AnnotationSchema). -/
inductive AnnotationSchema where
  | wholeStructure
  | entity
  | chain
  | authChain
  | residue
  | authResidue
  | residueRange
  | authResidueRange
  | atom
  | authAtom
  | allAtomic
deriving Repr, DecidableEq

/-- CIF block selector within an annotation spec: first block, 0-based index,
or header string. -/
inductive CifBlockSpec where
  | first
  | index (index : Nat)
  | header (header : String)
deriving Repr, DecidableEq

/-- Parameter values for a single annotation (AnnotationSpec). -/
structure AnnotationSpec where
  url : String
  format : AnnotationFormat
  schema : AnnotationSchema
  cifBlock : CifBlockSpec
  cifCategory : Option String
  id : String
deriving Repr, DecidableEq

/-- Data file with one or more annotations (AnnotationFile). -/
inductive AnnotationFile where
  | json (data : Json)
  | cif (data : CifFile)
deriving Repr

/-- Data for a single annotation (AnnotationData). -/
inductive AnnotationData where
  | json (data : Json)
  | cif (data : CifCategory)
deriving Repr

/-- One atom of a structural model, with its chain/entity/residue membership in
both label (canonical) and author (deposited) numbering, its insertion code,
name, element symbol and serial number. -/
structure Atom where
  label_entity_id : String
  label_asym_id : String
  auth_asym_id : String
  label_seq_id : Int
  auth_seq_id : Int
  pdbx_PDB_ins_code : String
  label_atom_id : String
  auth_atom_id : String
  type_symbol : String
  atom_id : Int
deriving Repr, DecidableEq

/-- An immutable structural model: a stable identity token and its atoms in
fixed order (an atom's index in this list is its atom_index / ElementIndex). -/
structure Model where
  id : String
  atoms : List Atom
deriving Repr, DecidableEq

/-- One annotation row: a sparse record over the selector field vocabulary of
ComponentExpression (param-types.ts); absent fields do not constrain. -/
structure AnnotationRow where
  label_entity_id : Option String
  label_asym_id : Option String
  auth_asym_id : Option String
  label_seq_id : Option Int
  auth_seq_id : Option Int
  pdbx_PDB_ins_code : Option String
  beg_label_seq_id : Option Int
  end_label_seq_id : Option Int
  beg_auth_seq_id : Option Int
  end_auth_seq_id : Option Int
  label_atom_id : Option String
  auth_atom_id : Option String
  type_symbol : Option String
  atom_id : Option Int
  atom_index : Option Int
deriving Repr, DecidableEq

/-- The annotation row with every selector field absent. -/
def emptyRow : AnnotationRow :=
  ⟨none, none, none, none, none, none, none, none, none, none, none, none, none, none, none⟩

instance : Inhabited AnnotationRow := ⟨emptyRow⟩

/-- Modelled from the spec: the selector field vocabulary for each schema
(schemas.ts FieldsForSchemas is not among the provided sources). Each schema
lists the fields that are semantically meaningful for its granularity, per
sections 3 and 4.2 of the specification. -/
def FieldsForSchemas : AnnotationSchema → List String
  | .wholeStructure => []
  | .entity => ["label_entity_id"]
  | .chain => ["label_entity_id", "label_asym_id"]
  | .authChain => ["auth_asym_id"]
  | .residue => ["label_entity_id", "label_asym_id", "label_seq_id"]
  | .authResidue => ["auth_asym_id", "auth_seq_id", "pdbx_PDB_ins_code"]
  | .residueRange =>
      ["label_entity_id", "label_asym_id", "beg_label_seq_id", "end_label_seq_id"]
  | .authResidueRange => ["auth_asym_id", "beg_auth_seq_id", "end_auth_seq_id"]
  | .atom =>
      ["label_entity_id", "label_asym_id", "label_seq_id",
       "label_atom_id", "type_symbol", "atom_id", "atom_index"]
  | .authAtom =>
      ["auth_asym_id", "auth_seq_id", "pdbx_PDB_ins_code",
       "auth_atom_id", "type_symbol", "atom_id", "atom_index"]
  | .allAtomic =>
      ["label_entity_id", "label_asym_id", "auth_asym_id",
       "label_seq_id", "auth_seq_id", "pdbx_PDB_ins_code",
       "beg_label_seq_id", "end_label_seq_id", "beg_auth_seq_id", "end_auth_seq_id",
       "label_atom_id", "auth_atom_id", "type_symbol", "atom_id", "atom_index"]

/-- Whether a named selector field is present in a row. -/
def fieldPresentInRow (row : AnnotationRow) (field : String) : Bool :=
  match field with
  | "label_entity_id" => row.label_entity_id.isSome
  | "label_asym_id" => row.label_asym_id.isSome
  | "auth_asym_id" => row.auth_asym_id.isSome
  | "label_seq_id" => row.label_seq_id.isSome
  | "auth_seq_id" => row.auth_seq_id.isSome
  | "pdbx_PDB_ins_code" => row.pdbx_PDB_ins_code.isSome
  | "beg_label_seq_id" => row.beg_label_seq_id.isSome
  | "end_label_seq_id" => row.end_label_seq_id.isSome
  | "beg_auth_seq_id" => row.beg_auth_seq_id.isSome
  | "end_auth_seq_id" => row.end_auth_seq_id.isSome
  | "label_atom_id" => row.label_atom_id.isSome
  | "auth_atom_id" => row.auth_atom_id.isSome
  | "type_symbol" => row.type_symbol.isSome
  | "atom_id" => row.atom_id.isSome
  | "atom_index" => row.atom_index.isSome
  | _ => false

/-- Modelled from the spec: the constraint a named selector field of a row
places on one atom (selections.ts is not among the provided sources). An
absent field constrains nothing; an exact field requires equality; range
bounds require the residue number to be on the bounded side, with an absent
bound unbounded on that side (spec section 4.2). -/
def fieldConstraintHolds (atom : Atom) (iAtom : Nat) (row : AnnotationRow)
    (field : String) : Bool :=
  match field with
  | "label_entity_id" => row.label_entity_id.all (· = atom.label_entity_id)
  | "label_asym_id" => row.label_asym_id.all (· = atom.label_asym_id)
  | "auth_asym_id" => row.auth_asym_id.all (· = atom.auth_asym_id)
  | "label_seq_id" => row.label_seq_id.all (· = atom.label_seq_id)
  | "auth_seq_id" => row.auth_seq_id.all (· = atom.auth_seq_id)
  | "pdbx_PDB_ins_code" => row.pdbx_PDB_ins_code.all (· = atom.pdbx_PDB_ins_code)
  | "beg_label_seq_id" => row.beg_label_seq_id.all (· ≤ atom.label_seq_id)
  | "end_label_seq_id" => row.end_label_seq_id.all (atom.label_seq_id ≤ ·)
  | "beg_auth_seq_id" => row.beg_auth_seq_id.all (· ≤ atom.auth_seq_id)
  | "end_auth_seq_id" => row.end_auth_seq_id.all (atom.auth_seq_id ≤ ·)
  | "label_atom_id" => row.label_atom_id.all (· = atom.label_atom_id)
  | "auth_atom_id" => row.auth_atom_id.all (· = atom.auth_atom_id)
  | "type_symbol" => row.type_symbol.all (· = atom.type_symbol)
  | "atom_id" => row.atom_id.all (· = atom.atom_id)
  | "atom_index" => row.atom_index.all (· = (iAtom : Int))
  | _ => true

/-- Modelled from the spec: atomQualifies from selections.ts (not among the
provided sources). An atom qualifies for a row under a schema when every
meaningful field of the schema that is present in the row constrains the atom
successfully, and, for every schema other than whole-structure, at least one
meaningful field is present (a row with all discriminating fields absent
matches nothing, not everything — spec section 4.2, edge cases). -/
def atomQualifies (schema : AnnotationSchema) (model : Model) (iAtom : Nat)
    (row : AnnotationRow) : Bool :=
  match model.atoms.get? iAtom with
  | none => false
  | some atom =>
      (decide (schema = .wholeStructure) ||
        (FieldsForSchemas schema).any (fieldPresentInRow row)) &&
      (FieldsForSchemas schema).all (fieldConstraintHolds atom iAtom row)

/-- Keys of a JSON value (JavaScript Object.keys): entry keys of an object in
declaration order, nothing for other values. -/
def jsKeys (j : Json) : List String :=
  match j with
  | .obj kvs => kvs.map Prod.fst
  | _ => []

/-- Entries of a JSON value: an object's entry list, empty otherwise. -/
def jsEntries (j : Json) : List (String × Json) :=
  match j with
  | .obj kvs => kvs
  | _ => []

/-- The .length property of a JSON value: defined for arrays and strings,
undefined (none) otherwise. -/
def jsLength (j : Json) : Option Nat :=
  match j with
  | .arr xs => some xs.length
  | .str s => some s.length
  | _ => none

/-- Embedding of pickObjectKeys from utils.ts: the sub-record of a JSON object
row holding exactly the wanted keys that are present, in wanted-key order. -/
def pickObjectKeys (obj : List (String × Json)) (keys : List String) :
    List (String × Json) :=
  keys.filterMap (fun k => (lookupByKey k obj).map (fun v => (k, v)))

/-- Element i of a JSON column value; defined for arrays in range, with
Json.null standing for the JavaScript undefined read otherwise (string
character access is not modelled; annotation columns are arrays). -/
def jsElementAt (j : Json) (i : Nat) : Json :=
  match j with
  | .arr xs => xs.getD i .null
  | _ => .null

/-- Embedding of getRowsFromJson from annotation-prop.ts. An array source is an
array of objects: each element becomes a row restricted to the schema
vocabulary. Any other source is treated as an object of arrays: the object
keys belonging to the schema vocabulary name column arrays, which must all
have the same .length as the first one or the load fails with a format error;
with common length n, rows 0..n-1 are synthesized index-wise. -/
def getRowsFromJson (data : Json) (schema : AnnotationSchema) :
    Except String (List (List (String × Json))) :=
  match data with
  | .arr js => .ok (js.map (fun row => pickObjectKeys (jsEntries row) (FieldsForSchemas schema)))
  | js =>
      let wantedKeys := FieldsForSchemas schema
      let keys := (jsKeys js).filter (fun k => wantedKeys.contains k)
      match keys with
      | [] => .ok []
      | k0 :: _ =>
          let n := jsLength (coalesce (jsGet js k0) .null)
          if keys.any (fun k => jsLength (coalesce (jsGet js k) .null) ≠ n) then
            .error "FormatError: arrays must have the same length."
          else
            .ok ((List.range (n.getD 0)).map (fun i =>
              keys.map (fun k => (k, jsElementAt (coalesce (jsGet js k) .null) i))))

/-- Modelled from mol* toTable (mol-io cif schema, an external collaborator):
build a table with one column per wanted key, where a key missing from the
category becomes an undefined column whose value kind is never Present. -/
def toTable (wantedKeys : List String) (data : CifCategory) :
    List (String × CifField) :=
  wantedKeys.map (fun k => (k, (data.getField k).getD ⟨[], []⟩))

/-- Embedding of getRowsFromTable from annotation-prop.ts: like Table.getRows
but omitting fields whose value kind at the row is not Present, instead of
substituting type defaults. -/
def getRowsFromTable (columns : List (String × CifField)) (nRows : Nat) :
    List (List (String × String)) :=
  (List.range nRows).map (fun iRow =>
    columns.filterMap (fun kv =>
      if kv.2.valueKind (iRow : Int) = .Present then some (kv.1, kv.2.strAt (iRow : Int))
      else none))

/-- Embedding of getRowsFromCif from annotation-prop.ts: restrict the category
to the schema vocabulary via toTable, then read rows omitting non-Present
fields. -/
def getRowsFromCif (data : CifCategory) (schema : AnnotationSchema) :
    List (List (String × String)) :=
  getRowsFromTable (toTable (FieldsForSchemas schema) data) data.rowCount

/-- Main class for processing an annotation: the parsed data source, the
schema, and the per-model cache of atom-to-row-index mappings (class
Annotation of annotation-prop.ts; the mutable Map becomes an explicit
association list keyed by the model identity token). -/
structure Annotation where
  data : AnnotationData
  schema : AnnotationSchema
  indexedModels : List (String × List Int)
deriving Repr

/-- Block selection of Annotation.fromSpec over a nonempty block list: by
header string, by 0-based index, or the first block; a missing header or an
out-of-range index is a thrown error. -/
def fromSpecCifBlock (spec : AnnotationSpec) (b0 : CifBlock) (rest : List CifBlock) :
    Except String CifBlock :=
  match spec.cifBlock with
  | .header h =>
      match (b0 :: rest).find? (fun b => decide (b.header = h)) with
      | some b => .ok b
      | none => .error ("CIF block with header " ++ h ++ " not found")
  | .index i =>
      match (b0 :: rest).get? i with
      | some b => .ok b
      | none => .error ("CIF block with index " ++ toString i ++ " not found")
  | .first => .ok b0

/-- Category selection of Annotation.fromSpec within the chosen block: the
category named in the spec, or the block's first declared category when no
name is given; a falsy name (no categories, or the empty string) and an
absent named category are thrown errors. -/
def fromSpecCifCategory (spec : AnnotationSpec) (block : CifBlock) :
    Except String Annotation :=
  match (match spec.cifCategory with
         | some c => some c
         | none => (block.categories.map Prod.fst).head?) with
  | none => .error "There are no categories in CIF block"
  | some cname =>
      if cname = "" then .error "There are no categories in CIF block"
      else
        match lookupByKey cname block.categories with
        | none => .error ("CIF category " ++ cname ++ " not found")
        | some category => .ok ⟨.cif category, spec.schema, []⟩

/-- Embedding of Annotation.fromSpec for an already available file: select the
CIF block by header, by 0-based index, or default to the first block, then
select the named category or the block's first category; every failure is a
thrown error and produces no Annotation value. JSON files are taken as they
are. -/
def Annotation.fromSpec (spec : AnnotationSpec) (file : AnnotationFile) :
    Except String Annotation :=
  match file with
  | .json d => .ok ⟨.json d, spec.schema, []⟩
  | .cif f =>
      match f.blocks with
      | [] => .error "No block in CIF"
      | b0 :: rest =>
          match fromSpecCifBlock spec b0 rest with
          | .error e => .error e
          | .ok block => fromSpecCifCategory spec block

/-- Whether an atom index is covered by one of a list of half-open ranges. -/
def rangeCovers (ranges : List (Nat × Nat)) (i : Nat) : Bool :=
  ranges.any (fun r => r.1 ≤ i && i < r.2)

/-- Prepend index i to a list of half-open runs, merging with the first run
when it starts exactly at i + 1. -/
def extendRun (i : Nat) : List (Nat × Nat) → List (Nat × Nat)
  | [] => [(i, i + 1)]
  | (f, t) :: rest => if i + 1 = f then (i, t) :: rest else (i, i + 1) :: (f, t) :: rest

/-- Maximal runs of consecutive indices satisfying a predicate, over an
ascending index list. -/
def runsOf (p : Nat → Bool) : List Nat → List (Nat × Nat)
  | [] => []
  | i :: rest => if p i then extendRun i (runsOf p rest) else runsOf p rest

/-- Modelled from the spec: getAtomRangesForRow from selections.ts (not among
the provided sources, nor is the structural index of indexing.ts it consumes).
It returns the ordered, non-overlapping contiguous atom-index ranges the row
selects under the schema (spec section 4.2); extensionally these are the
maximal runs of atoms qualifying for the row. -/
def getAtomRangesForRow (schema : AnnotationSchema) (model : Model)
    (row : AnnotationRow) : List (Nat × Nat) :=
  runsOf (fun i => atomQualifies schema model i row) (List.range model.atoms.length)

/-- Helper of listFill: rewrite the elements at positions [a, b), the head of
the list sitting at position j. -/
def listFillAux (v : Int) (a b : Nat) : Nat → List Int → List Int
  | _, [] => []
  | j, x :: rest => (if a ≤ j && j < b then v else x) :: listFillAux v a b (j + 1) rest

/-- JavaScript Array.prototype.fill(v, a, b): rewrite positions [a, b) with v,
leaving length and the other positions unchanged. -/
def listFill (l : List Int) (v : Int) (a b : Nat) : List Int :=
  listFillAux v a b 0 l

/-- Embedding of rangesForeach from helpers/atom-ranges.ts as used in
getRowForEachAtom: fill the result over every range in order. -/
def fillRanges (l : List Int) (v : Int) (ranges : List (Nat × Nat)) : List Int :=
  ranges.foldl (fun acc r => listFill acc v r.1 r.2) l

/-- Embedding of Annotation.getRowForEachAtom with the row list (the value of
this.getRows()) made explicit: start from an all-(-1) array of length atom
count and, iterating rows in list order, overwrite each row's matched ranges
with the row's index. -/
def getRowForEachAtom (schema : AnnotationSchema) (model : Model)
    (rows : List AnnotationRow) : List Int :=
  (List.range rows.length).foldl
    (fun result i =>
      fillRanges result (Int.ofNat i) (getAtomRangesForRow schema model (rows.getD i emptyRow)))
    (List.replicate model.atoms.length (-1))

/-- Embedding of Annotation.getAnnotationForLocation_Reference with the row
list made explicit: scan all rows in order and keep the last row for which
atomQualifies holds. -/
def getAnnotationForLocation_Reference (schema : AnnotationSchema) (model : Model)
    (iAtom : Nat) (rows : List AnnotationRow) : Option AnnotationRow :=
  rows.foldl (fun result row => if atomQualifies schema model iAtom row then some row else result)
    none

/-- The index of the last row qualifying for an atom, -1 when none does; the
specification-level description of both resolvers. -/
def lastMatchIndex (schema : AnnotationSchema) (model : Model) (iAtom : Nat)
    (rows : List AnnotationRow) : Int :=
  (List.range rows.length).foldl
    (fun acc j =>
      if atomQualifies schema model iAtom (rows.getD j emptyRow) then Int.ofNat j else acc)
    (-1)

/-- Field names of the annotation row vocabulary holding integers (typed int in
the CIF schema of schemas.ts, modelled from the spec). -/
def intFieldNames : List String :=
  ["label_seq_id", "auth_seq_id", "beg_label_seq_id", "end_label_seq_id",
   "beg_auth_seq_id", "end_auth_seq_id", "atom_id", "atom_index"]

/-- Typed reading of one selector field value from a JSON cell. -/
def jsonCellStr : Option Json → Option String
  | some (.str s) => some s
  | _ => none

/-- Typed reading of one integer selector field value from a JSON cell. -/
def jsonCellInt : Option Json → Option Int
  | some (.num n) => some n
  | _ => none

/-- Typed projection of a dictionary row (as produced by getRowsFromJson) onto
the structured AnnotationRow record; fields with missing or wrongly typed
values are absent. -/
def rowFromDict (d : List (String × Json)) : AnnotationRow :=
  { label_entity_id := jsonCellStr (lookupByKey "label_entity_id" d)
    label_asym_id := jsonCellStr (lookupByKey "label_asym_id" d)
    auth_asym_id := jsonCellStr (lookupByKey "auth_asym_id" d)
    label_seq_id := jsonCellInt (lookupByKey "label_seq_id" d)
    auth_seq_id := jsonCellInt (lookupByKey "auth_seq_id" d)
    pdbx_PDB_ins_code := jsonCellStr (lookupByKey "pdbx_PDB_ins_code" d)
    beg_label_seq_id := jsonCellInt (lookupByKey "beg_label_seq_id" d)
    end_label_seq_id := jsonCellInt (lookupByKey "end_label_seq_id" d)
    beg_auth_seq_id := jsonCellInt (lookupByKey "beg_auth_seq_id" d)
    end_auth_seq_id := jsonCellInt (lookupByKey "end_auth_seq_id" d)
    label_atom_id := jsonCellStr (lookupByKey "label_atom_id" d)
    auth_atom_id := jsonCellStr (lookupByKey "auth_atom_id" d)
    type_symbol := jsonCellStr (lookupByKey "type_symbol" d)
    atom_id := jsonCellInt (lookupByKey "atom_id" d)
    atom_index := jsonCellInt (lookupByKey "atom_index" d) }

/-- Conversion of one CIF table row (string cells) into a JSON dictionary row,
parsing the integer-typed fields (the typed columns of schemas.ts
CIFAnnotationSchema, modelled from the spec). -/
def cifRowToJsonRow (d : List (String × String)) : List (String × Json) :=
  d.map (fun kv =>
    (kv.1,
      if intFieldNames.contains kv.1 then
        match kv.2.toInt? with
        | some n => Json.num n
        | none => Json.null
      else Json.str kv.2))

/-- Embedding of Annotation.getRows: parse all annotation rows from the data
source (JSON parsing can throw a format error). -/
def Annotation.getRows (a : Annotation) : Except String (List AnnotationRow) :=
  match a.data with
  | .json d => (getRowsFromJson d a.schema).map (fun rows => rows.map rowFromDict)
  | .cif c => .ok ((getRowsFromCif c a.schema).map (fun r => rowFromDict (cifRowToJsonRow r)))

/-- Embedding of Annotation.getIndexedModel: return the cached mapping for the
model identity token, or compute it with getRowForEachAtom, store it, and
return the stored array. The mutated Map becomes an explicitly returned
updated Annotation. -/
def Annotation.getIndexedModel (a : Annotation) (model : Model) :
    Except String (List Int × Annotation) :=
  match lookupByKey model.id a.indexedModels with
  | some arr => .ok (arr, a)
  | none =>
      match a.getRows with
      | .error e => .error e
      | .ok rows =>
          let result := getRowForEachAtom a.schema model rows
          .ok (result, ⟨a.data, a.schema, a.indexedModels ++ [(model.id, result)]⟩)

/-- Embedding of Annotation.getValueForLocation: resolve the atom's row index
through the indexed model and read the field value from the JSON or CIF data
(an out-of-range atom index reads as -1, which yields undefined in every
accessor, exactly as the JavaScript undefined read would). -/
def Annotation.getValueForLocation (a : Annotation) (model : Model) (iAtom : Nat)
    (fieldName : String) : Except String (Option Json × Annotation) :=
  match a.getIndexedModel model with
  | .error e => .error e
  | .ok (indexedModel, a') =>
      let iRow := indexedModel.getD iAtom (-1)
      match a'.data with
      | .json d => (getValueFromJson iRow fieldName d).map (fun v => (v, a'))
      | .cif c => .ok ((getValueFromCif iRow fieldName c).map Json.str, a')

/-- Deduplication key of an annotation source: format and url (the template
string of getFileFromSources). -/
def sourceKey (spec : AnnotationSpec) : String :=
  spec.format.key ++ ":" ++ spec.url

/-- The key-to-file map built by getFileFromSources: iterating sources in
order, the first occurrence of a key installs the (single) fetch for that key
(promises[key] ??= getFileFromSource(ctx, src)); later occurrences find the
key present and install nothing. -/
def buildPromises (fetch : AnnotationSpec → AnnotationFile)
    (sources : List AnnotationSpec) : List (String × AnnotationFile) :=
  sources.foldl
    (fun m src =>
      if (lookupByKey (sourceKey src) m).isSome then m
      else m ++ [(sourceKey src, fetch src)])
    []

/-- Embedding of getFileFromSources: build the key-to-file map, then give every
source the file stored under its own key. The fetch/parse of
getFileFromSource is abstracted as a function from the spec to the file. -/
def getFileFromSources (fetch : AnnotationSpec → AnnotationFile)
    (sources : List AnnotationSpec) : List AnnotationFile :=
  let data := buildPromises fetch sources
  sources.map (fun src => (lookupByKey (sourceKey src) data).getD (.json .null))

/-- Represents multiple annotations retrievable by their ID (class Annotations
of annotation-prop.ts); the JavaScript object becomes an association list in
key insertion order. -/
structure Annotations where
  dict : List (String × Annotation)

/-- JavaScript object write dict[key] = v: replace the value in place when the
key exists (keeping its position), append the entry otherwise. -/
def dictInsert {α : Type} (d : List (String × α)) (key : String) (v : α) :
    List (String × α) :=
  if (lookupByKey key d).isSome then
    d.map (fun kv => if kv.1 = key then (key, v) else kv)
  else d ++ [(key, v)]

/-- Loop of Annotations.fromSpecs over the spec list zipped with its files:
build each Annotation and store it under the user-supplied spec id. -/
def fromSpecsLoop (pairs : List (AnnotationSpec × AnnotationFile))
    (dict : List (String × Annotation)) : Except String (List (String × Annotation)) :=
  match pairs with
  | [] => .ok dict
  | (spec, file) :: rest =>
      match Annotation.fromSpec spec file with
      | .error e => .error e
      | .ok ann => fromSpecsLoop rest (dictInsert dict spec.id ann)

/-- Embedding of Annotations.fromSpecs: fetch the files of all specs (with
deduplication), then fill the dictionary in spec order. -/
def Annotations.fromSpecs (fetch : AnnotationSpec → AnnotationFile)
    (specs : List AnnotationSpec) : Except String Annotations :=
  (fromSpecsLoop (specs.zip (getFileFromSources fetch specs)) []).map (fun d => ⟨d⟩)

/-- Embedding of Annotations.getAnnotation: dictionary read by id. -/
def Annotations.getAnnotation (as : Annotations) (id : String) : Option Annotation :=
  lookupByKey id as.dict

/-- Embedding of Annotations.getAllAnnotations: the dictionary values in key
insertion order (JavaScript Object.values). -/
def Annotations.getAllAnnotations (as : Annotations) : List Annotation :=
  as.dict.map Prod.snd

theorem extendRun_wf (i : Nat) (acc : List (Nat × Nat)) (h : ∀ r ∈ acc, r.1 < r.2) :
    ∀ r ∈ extendRun i acc, r.1 < r.2 := by
  intro r hr
  cases acc with
  | nil =>
      simp only [extendRun, List.mem_singleton] at hr
      subst hr; simp
  | cons hd tl =>
      obtain ⟨f, t⟩ := hd
      by_cases hif : i + 1 = f
      · simp only [extendRun, if_pos hif, List.mem_cons] at hr
        rcases hr with hr | hr
        · subst hr
          have hft : f < t := h (f, t) (by simp)
          simp; omega
        · exact h r (List.mem_cons_of_mem _ hr)
      · simp only [extendRun, if_neg hif, List.mem_cons] at hr
        rcases hr with hr | hr
        · subst hr; simp
        · exact h r (List.mem_cons.mpr hr)

theorem runsOf_wf (p : Nat → Bool) : ∀ (xs : List Nat), ∀ r ∈ runsOf p xs, r.1 < r.2 := by
  intro xs
  induction xs with
  | nil => simp [runsOf]
  | cons i rest ih =>
      intro r hr
      by_cases hp : p i
      · simp only [runsOf, if_pos hp] at hr
        exact extendRun_wf i (runsOf p rest) ih r hr
      · simp only [runsOf, if_neg hp] at hr
        exact ih r hr

theorem rangeCovers_extendRun (i j : Nat) (acc : List (Nat × Nat))
    (h : ∀ r ∈ acc, r.1 < r.2) :
    rangeCovers (extendRun i acc) j = true ↔ j = i ∨ rangeCovers acc j = true := by
  cases acc with
  | nil =>
      simp only [extendRun, rangeCovers, List.any_cons, List.any_nil]
      simp; omega
  | cons hd tl =>
      obtain ⟨f, t⟩ := hd
      have hft : f < t := h (f, t) (by simp)
      by_cases hif : i + 1 = f
      · simp only [extendRun, if_pos hif, rangeCovers, List.any_cons]
        simp only [rangeCovers, List.any_cons] at *
        simp; constructor
        · rintro (h1 | h2)
          · omega
          · tauto
        · rintro (h1 | h2 | h3)
          · omega
          · omega
          · tauto
      · simp only [extendRun, if_neg hif, rangeCovers, List.any_cons]
        simp only [rangeCovers, List.any_cons] at *
        simp; constructor
        · rintro (h1 | h2 | h3)
          · omega
          · tauto
          · tauto
        · rintro (h1 | h2 | h3)
          · omega
          · tauto
          · tauto

theorem rangeCovers_runsOf (p : Nat → Bool) (j : Nat) :
    ∀ xs : List Nat, rangeCovers (runsOf p xs) j = true ↔ j ∈ xs ∧ p j = true := by
  intro xs
  induction xs with
  | nil => simp [runsOf, rangeCovers]
  | cons i rest ih =>
      by_cases hp : p i
      · simp only [runsOf, if_pos hp]
        rw [rangeCovers_extendRun i j (runsOf p rest) (runsOf_wf p rest)]
        rw [ih]
        constructor
        · rintro (h1 | ⟨h2, h3⟩)
          · subst h1; exact ⟨List.mem_cons_self _ _, hp⟩
          · exact ⟨List.mem_cons_of_mem _ h2, h3⟩
        · rintro ⟨h1, h2⟩
          rcases List.mem_cons.mp h1 with h1 | h1
          · exact Or.inl h1
          · exact Or.inr ⟨h1, h2⟩
      · simp only [runsOf, if_neg hp]
        rw [ih]
        constructor
        · rintro ⟨h1, h2⟩
          exact ⟨List.mem_cons_of_mem _ h1, h2⟩
        · rintro ⟨h1, h2⟩
          rcases List.mem_cons.mp h1 with h1 | h1
          · subst h1; simp [h2] at hp
          · exact ⟨h1, h2⟩

theorem atomQualifies_false_of_ge (schema : AnnotationSchema) (model : Model)
    (iAtom : Nat) (row : AnnotationRow) (h : model.atoms.length ≤ iAtom) :
    atomQualifies schema model iAtom row = false := by
  unfold atomQualifies
  rw [List.get?_eq_none.mpr h]

theorem rangeCovers_getAtomRangesForRow (schema : AnnotationSchema) (model : Model)
    (row : AnnotationRow) (i : Nat) :
    rangeCovers (getAtomRangesForRow schema model row) i = atomQualifies schema model i row := by
  have hiff := rangeCovers_runsOf (fun k => atomQualifies schema model k row) i
    (List.range model.atoms.length)
  unfold getAtomRangesForRow
  cases hq : atomQualifies schema model i row with
  | false =>
      rw [Bool.eq_false_iff]
      intro hcov
      have := hiff.mp hcov
      rw [hq] at this
      exact Bool.false_ne_true this.2
  | true =>
      apply hiff.mpr
      refine ⟨List.mem_range.mpr ?_, hq⟩
      by_contra hge
      have := atomQualifies_false_of_ge schema model i row (by omega)
      rw [this] at hq
      exact Bool.false_ne_true hq

theorem listFillAux_get? (v : Int) (a b : Nat) :
    ∀ (l : List Int) (j i : Nat),
    (listFillAux v a b j l).get? i =
      (l.get? i).map (fun x => if a ≤ j + i ∧ j + i < b then v else x) := by
  intro l
  induction l with
  | nil => intro j i; simp [listFillAux]
  | cons x rest ih =>
      intro j i
      cases i with
      | zero =>
          simp only [listFillAux, List.get?_cons_zero, Option.map_some, Nat.add_zero]
          congr 1
          simp [Bool.and_eq_true, decide_eq_true_eq]
      | succ i' =>
          simp only [listFillAux, List.get?_cons_succ]
          rw [ih (j + 1) i']
          have harith : j + 1 + i' = j + (i' + 1) := by omega
          rw [harith]

theorem listFill_get? (l : List Int) (v : Int) (a b : Nat) (i : Nat) :
    (listFill l v a b).get? i = (l.get? i).map (fun x => if a ≤ i ∧ i < b then v else x) := by
  unfold listFill
  rw [listFillAux_get?]
  simp

theorem fillRanges_get? (v : Int) :
    ∀ (rs : List (Nat × Nat)) (l : List Int) (i : Nat),
    (fillRanges l v rs).get? i =
      (l.get? i).map (fun x => if rangeCovers rs i = true then v else x) := by
  intro rs
  induction rs with
  | nil =>
      intro l i
      simp only [fillRanges, List.foldl_nil, rangeCovers, List.any_nil]
      cases l.get? i <;> simp
  | cons hd rest ih =>
      intro l i
      obtain ⟨a, b⟩ := hd
      have hstep : fillRanges l v ((a, b) :: rest) = fillRanges (listFill l v a b) v rest := rfl
      rw [hstep, ih, listFill_get?, Option.map_map]
      congr 1
      funext x
      simp only [Function.comp]
      have hcons : rangeCovers ((a, b) :: rest) i = true ↔
          ((a ≤ i ∧ i < b) ∨ rangeCovers rest i = true) := by
        simp [rangeCovers, List.any_cons]
      cases h1 : rangeCovers rest i with
      | false =>
          by_cases h2 : a ≤ i ∧ i < b
          · rw [if_pos (hcons.mpr (Or.inl h2))]
            simp [h1, h2]
          · have hnc : ¬ (rangeCovers ((a, b) :: rest) i = true) := by
              intro hc
              rcases hcons.mp hc with hl | hr
              · exact h2 hl
              · rw [h1] at hr; exact Bool.false_ne_true hr
            rw [if_neg hnc]
            simp [h1, h2]
      | true =>
          rw [if_pos (hcons.mpr (Or.inr h1))]
          simp [h1]

theorem listFillAux_length (v : Int) (a b : Nat) :
    ∀ (l : List Int) (j : Nat), (listFillAux v a b j l).length = l.length := by
  intro l
  induction l with
  | nil => intro j; simp [listFillAux]
  | cons x rest ih => intro j; simp [listFillAux, ih]

theorem fillRanges_length (v : Int) :
    ∀ (rs : List (Nat × Nat)) (l : List Int), (fillRanges l v rs).length = l.length := by
  intro rs
  induction rs with
  | nil => intro l; rfl
  | cons hd rest ih =>
      intro l
      obtain ⟨a, b⟩ := hd
      have hstep : fillRanges l v ((a, b) :: rest) = fillRanges (listFill l v a b) v rest := rfl
      rw [hstep, ih, listFill, listFillAux_length]

theorem rowFold_get? (schema : AnnotationSchema) (model : Model) (rows : List AnnotationRow) :
    ∀ (js : List Nat) (init : List Int) (i : Nat),
    ((js.foldl
        (fun result k =>
          fillRanges result (Int.ofNat k) (getAtomRangesForRow schema model (rows.getD k emptyRow)))
        init).get? i) =
      (init.get? i).map (fun x =>
        js.foldl
          (fun acc k =>
            if atomQualifies schema model i (rows.getD k emptyRow) = true then Int.ofNat k else acc)
          x) := by
  intro js
  induction js with
  | nil =>
      intro init i
      simp only [List.foldl_nil]
      cases init.get? i <;> simp
  | cons k rest ih =>
      intro init i
      simp only [List.foldl_cons]
      rw [ih, fillRanges_get?, Option.map_map]
      congr 1
      funext x
      simp only [Function.comp, rangeCovers_getAtomRangesForRow]

theorem rowFold_length (schema : AnnotationSchema) (model : Model) (rows : List AnnotationRow) :
    ∀ (js : List Nat) (init : List Int),
    (js.foldl
        (fun result k =>
          fillRanges result (Int.ofNat k) (getAtomRangesForRow schema model (rows.getD k emptyRow)))
        init).length = init.length := by
  intro js
  induction js with
  | nil => intro init; rfl
  | cons k rest ih =>
      intro init
      rw [List.foldl_cons, ih, fillRanges_length]

theorem replicate_get? (v : Int) : ∀ (n i : Nat),
    (List.replicate n v).get? i = if i < n then some v else none := by
  intro n
  induction n with
  | zero => intro i; simp
  | succ m ih =>
      intro i
      cases i with
      | zero => simp [List.replicate_succ]
      | succ i' =>
          rw [List.replicate_succ, List.get?_cons_succ, ih i']
          by_cases h : i' < m
          · rw [if_pos h, if_pos (by omega)]
          · rw [if_neg h, if_neg (by omega)]

theorem getRowForEachAtom_get? (schema : AnnotationSchema) (model : Model)
    (rows : List AnnotationRow) (i : Nat) :
    (getRowForEachAtom schema model rows).get? i =
      if i < model.atoms.length then some (lastMatchIndex schema model i rows) else none := by
  unfold getRowForEachAtom
  rw [rowFold_get?, replicate_get?]
  by_cases h : i < model.atoms.length
  · rw [if_pos h, if_pos h]
    rfl
  · rw [if_neg h, if_neg h]
    rfl

theorem getRowForEachAtom_length (schema : AnnotationSchema) (model : Model)
    (rows : List AnnotationRow) :
    (getRowForEachAtom schema model rows).length = model.atoms.length := by
  unfold getRowForEachAtom
  rw [rowFold_length, List.length_replicate]

theorem foldl_eq_range_foldl {α β : Type} (g : β → α → β) (d : α) : ∀ (l : List α) (init : β),
    l.foldl g init = (List.range l.length).foldl (fun b j => g b (l.getD j d)) init := by
  intro l
  induction l with
  | nil => intro init; rfl
  | cons x xs ih =>
      intro init
      rw [List.foldl_cons, List.length_cons, List.range_succ_eq_map, List.foldl_cons,
        List.foldl_map]
      simp only [List.getD_cons_zero, List.getD_cons_succ]
      exact ih (g init x)

theorem reference_range (schema : AnnotationSchema) (model : Model) (iAtom : Nat)
    (rows : List AnnotationRow) :
    getAnnotationForLocation_Reference schema model iAtom rows =
      (List.range rows.length).foldl
        (fun res j =>
          if atomQualifies schema model iAtom (rows.getD j emptyRow) then
            some (rows.getD j emptyRow)
          else res)
        none := by
  unfold getAnnotationForLocation_Reference
  rw [foldl_eq_range_foldl _ emptyRow]

theorem keepLast_bounds (q : Nat → Bool) : ∀ n : Nat,
    -1 ≤ (List.range n).foldl (fun acc j => if q j then Int.ofNat j else acc) (-1) ∧
    (List.range n).foldl (fun acc j => if q j then Int.ofNat j else acc) (-1) < (n : Int) := by
  intro n
  induction n with
  | zero => simp
  | succ m ih =>
      rw [List.range_succ, List.foldl_append, List.foldl_cons, List.foldl_nil]
      by_cases h : q m
      · rw [if_pos h]
        constructor <;> simp only [Int.ofNat_eq_natCast] <;> omega
      · rw [if_neg h]
        obtain ⟨h1, h2⟩ := ih
        constructor <;> omega

theorem keepLast_neg1 (q : Nat → Bool) : ∀ n : Nat,
    ((List.range n).foldl (fun acc j => if q j then Int.ofNat j else acc) (-1) = -1 ↔
      ∀ j, j < n → q j = false) := by
  intro n
  induction n with
  | zero => simp
  | succ m ih =>
      rw [List.range_succ, List.foldl_append, List.foldl_cons, List.foldl_nil]
      by_cases h : q m
      · rw [if_pos h]
        constructor
        · intro he
          simp only [Int.ofNat_eq_natCast] at he
          exfalso; omega
        · intro hall
          have := hall m (by omega)
          rw [this] at h
          exact absurd h (by simp)
      · rw [if_neg h, ih]
        constructor
        · intro hall j hj
          rcases Nat.lt_succ_iff_lt_or_eq.mp hj with h1 | h1
          · exact hall j h1
          · subst h1; simpa using h
        · intro hall j hj
          exact hall j (by omega)

theorem keepLast_last (q : Nat → Bool) : ∀ (n j : Nat),
    (List.range n).foldl (fun acc j => if q j then Int.ofNat j else acc) (-1) = Int.ofNat j →
    q j = true ∧ ∀ k, j < k → k < n → q k = false := by
  intro n
  induction n with
  | zero =>
      intro j h
      simp only [List.range_zero, List.foldl_nil, Int.ofNat_eq_natCast] at h
      exfalso; omega
  | succ m ih =>
      intro j h
      rw [List.range_succ, List.foldl_append, List.foldl_cons, List.foldl_nil] at h
      by_cases hq : q m
      · rw [if_pos hq] at h
        simp only [Int.ofNat_eq_natCast] at h
        have hjm : j = m := by omega
        subst hjm
        exact ⟨hq, fun k hk1 hk2 => (by omega : False).elim⟩
      · rw [if_neg hq] at h
        obtain ⟨hqj, hrest⟩ := ih j h
        refine ⟨hqj, fun k hk1 hk2 => ?_⟩
        rcases Nat.lt_succ_iff_lt_or_eq.mp hk2 with h1 | h1
        · exact hrest k hk1 h1
        · subst h1; simpa using hq

theorem keepLast_ref {α : Type} (q : Nat → Bool) (r : Nat → α) : ∀ n : Nat,
    ((List.range n).foldl (fun acc j => if q j then Int.ofNat j else acc) (-1) = -1 →
      (List.range n).foldl (fun res j => if q j then some (r j) else res) (none : Option α) =
        none) ∧
    (∀ j : Nat,
      (List.range n).foldl (fun acc j => if q j then Int.ofNat j else acc) (-1) = Int.ofNat j →
      (List.range n).foldl (fun res j => if q j then some (r j) else res) (none : Option α) =
        some (r j)) := by
  intro n
  induction n with
  | zero =>
      refine ⟨fun _ => rfl, fun j h => ?_⟩
      simp only [List.range_zero, List.foldl_nil, Int.ofNat_eq_natCast] at h
      exfalso; omega
  | succ m ih =>
      rw [List.range_succ, List.foldl_append, List.foldl_cons, List.foldl_nil,
        List.foldl_append, List.foldl_cons, List.foldl_nil]
      by_cases hq : q m
      · rw [if_pos hq, if_pos hq]
        constructor
        · intro h
          simp only [Int.ofNat_eq_natCast] at h
          exfalso; omega
        · intro j h
          simp only [Int.ofNat_eq_natCast] at h
          have : j = m := by omega
          subst this; rfl
      · rw [if_neg hq, if_neg hq]
        exact ih

theorem lastMatchIndex_bounds (schema : AnnotationSchema) (model : Model) (iAtom : Nat)
    (rows : List AnnotationRow) :
    -1 ≤ lastMatchIndex schema model iAtom rows ∧
    lastMatchIndex schema model iAtom rows < (rows.length : Int) :=
  keepLast_bounds (fun j => atomQualifies schema model iAtom (rows.getD j emptyRow)) rows.length

theorem lastMatchIndex_neg1_iff (schema : AnnotationSchema) (model : Model) (iAtom : Nat)
    (rows : List AnnotationRow) :
    lastMatchIndex schema model iAtom rows = -1 ↔
      ∀ j, j < rows.length → atomQualifies schema model iAtom (rows.getD j emptyRow) = false :=
  keepLast_neg1 (fun j => atomQualifies schema model iAtom (rows.getD j emptyRow)) rows.length

theorem lastMatchIndex_last (schema : AnnotationSchema) (model : Model) (iAtom : Nat)
    (rows : List AnnotationRow) (j : Nat)
    (h : lastMatchIndex schema model iAtom rows = Int.ofNat j) :
    atomQualifies schema model iAtom (rows.getD j emptyRow) = true ∧
    ∀ k, j < k → k < rows.length →
      atomQualifies schema model iAtom (rows.getD k emptyRow) = false :=
  keepLast_last (fun j => atomQualifies schema model iAtom (rows.getD j emptyRow)) rows.length j h

theorem reference_of_lastMatch (schema : AnnotationSchema) (model : Model) (iAtom : Nat)
    (rows : List AnnotationRow) :
    (lastMatchIndex schema model iAtom rows = -1 →
      getAnnotationForLocation_Reference schema model iAtom rows = none) ∧
    (∀ j : Nat, lastMatchIndex schema model iAtom rows = Int.ofNat j →
      getAnnotationForLocation_Reference schema model iAtom rows =
        some (rows.getD j emptyRow)) := by
  rw [reference_range]
  exact keepLast_ref (fun j => atomQualifies schema model iAtom (rows.getD j emptyRow))
    (fun j => rows.getD j emptyRow) rows.length

theorem runsOf_nil_of_false (p : Nat → Bool) :
    ∀ xs : List Nat, (∀ i ∈ xs, p i = false) → runsOf p xs = [] := by
  intro xs
  induction xs with
  | nil => intro _; rfl
  | cons i rest ih =>
      intro h
      have hi : p i = false := h i (List.mem_cons_self _ _)
      simp only [runsOf, hi]
      simp only [Bool.false_eq_true, if_false]
      exact ih (fun k hk => h k (List.mem_cons_of_mem _ hk))

/-- Fixture atom for witnesses. -/
def witnessAtom (asym : String) (seq : Int) : Atom :=
  ⟨"1", asym, asym, seq, seq, "", "CA", "CA", "C", seq⟩

/-- Fixture model for witnesses: three residues of chain A and one of chain B. -/
def witnessModel : Model :=
  ⟨"model-1", [witnessAtom "A" 1, witnessAtom "A" 2, witnessAtom "A" 3, witnessAtom "B" 1]⟩

/-- Fixture row selecting residues 1-3 of chain A. -/
def witnessRow1 : AnnotationRow :=
  { emptyRow with label_asym_id := some "A", beg_label_seq_id := some 1, end_label_seq_id := some 3 }

/-- Fixture row selecting residue 2 of chain A. -/
def witnessRow2 : AnnotationRow :=
  { emptyRow with label_asym_id := some "A", beg_label_seq_id := some 2, end_label_seq_id := some 2 }

/-- C1: for every model, every row list and every atom of the model, the row
index produced by the indexed resolver (getRowForEachAtom, as consumed by
getValueForLocation through getIndexedModel) identifies the same row as the
brute-force reference resolver getAnnotationForLocation_Reference, which
scans all rows in order and keeps the last row for which atomQualifies holds;
the two also agree on no row applying (-1 versus undefined). -/
theorem C1_indexed_matches_reference (schema : AnnotationSchema) (model : Model)
    (rows : List AnnotationRow) (iAtom : Nat) (h : iAtom < model.atoms.length) :
    ((getRowForEachAtom schema model rows).get? iAtom = some (-1) ↔
      getAnnotationForLocation_Reference schema model iAtom rows = none) ∧
    (∀ j : Nat, (getRowForEachAtom schema model rows).get? iAtom = some (Int.ofNat j) →
      getAnnotationForLocation_Reference schema model iAtom rows =
        some (rows.getD j emptyRow)) := by
  have hget := getRowForEachAtom_get? schema model rows iAtom
  rw [if_pos h] at hget
  constructor
  · constructor
    · intro he
      rw [hget] at he
      exact (reference_of_lastMatch schema model iAtom rows).1 (Option.some.inj he)
    · intro hn
      rw [hget]
      have hL : lastMatchIndex schema model iAtom rows = -1 := by
        by_contra hne
        obtain ⟨hb1, hb2⟩ := lastMatchIndex_bounds schema model iAtom rows
        have h0 : (0 : Int) ≤ lastMatchIndex schema model iAtom rows := by omega
        have hofnat : lastMatchIndex schema model iAtom rows =
            Int.ofNat (lastMatchIndex schema model iAtom rows).toNat := by
          simp only [Int.ofNat_eq_natCast]
          omega
        have href := (reference_of_lastMatch schema model iAtom rows).2 _ hofnat
        rw [href] at hn
        exact Option.noConfusion hn
      rw [hL]
  · intro j hj
    rw [hget] at hj
    exact (reference_of_lastMatch schema model iAtom rows).2 j (Option.some.inj hj)

theorem C1_witness :
    1 < witnessModel.atoms.length ∧
    (((getRowForEachAtom .residueRange witnessModel [witnessRow1, witnessRow2]).get? 1 =
        some (-1) ↔
      getAnnotationForLocation_Reference .residueRange witnessModel 1
        [witnessRow1, witnessRow2] = none) ∧
    (∀ j : Nat,
      (getRowForEachAtom .residueRange witnessModel [witnessRow1, witnessRow2]).get? 1 =
        some (Int.ofNat j) →
      getAnnotationForLocation_Reference .residueRange witnessModel 1
        [witnessRow1, witnessRow2] =
        some ([witnessRow1, witnessRow2].getD j emptyRow))) :=
  ⟨by decide,
   C1_indexed_matches_reference .residueRange witnessModel [witnessRow1, witnessRow2] 1
     (by decide)⟩

/-- C2: for every model with n atoms and every ordered row list, the result of
getRowForEachAtom has length exactly n, and entry i is the greatest index of a
row whose matched atom ranges cover atom i, or -1 when no row's ranges cover
it; in particular every atom in an overlap of two rows' ranges resolves to the
later row's index (last match wins, by iterating rows in order and
unconditionally overwriting). -/
theorem C2_last_match_wins (schema : AnnotationSchema) (model : Model)
    (rows : List AnnotationRow) :
    (getRowForEachAtom schema model rows).length = model.atoms.length ∧
    ∀ i, i < model.atoms.length →
      (((getRowForEachAtom schema model rows).get? i = some (-1) ↔
        ∀ j, j < rows.length →
          rangeCovers (getAtomRangesForRow schema model (rows.getD j emptyRow)) i = false) ∧
      (∀ j : Nat, (getRowForEachAtom schema model rows).get? i = some (Int.ofNat j) →
        j < rows.length ∧
        rangeCovers (getAtomRangesForRow schema model (rows.getD j emptyRow)) i = true ∧
        ∀ k, j < k → k < rows.length →
          rangeCovers (getAtomRangesForRow schema model (rows.getD k emptyRow)) i = false)) := by
  refine ⟨getRowForEachAtom_length schema model rows, fun i hi => ?_⟩
  have hget := getRowForEachAtom_get? schema model rows i
  rw [if_pos hi] at hget
  constructor
  · rw [hget]
    constructor
    · intro he
      have hall := (lastMatchIndex_neg1_iff schema model i rows).mp (Option.some.inj he)
      intro j hj
      rw [rangeCovers_getAtomRangesForRow]
      exact hall j hj
    · intro hall
      have hL : lastMatchIndex schema model i rows = -1 := by
        apply (lastMatchIndex_neg1_iff schema model i rows).mpr
        intro j hj
        have := hall j hj
        rwa [rangeCovers_getAtomRangesForRow] at this
      rw [hL]
  · intro j hj
    rw [hget] at hj
    have hL := Option.some.inj hj
    obtain ⟨hq, hafter⟩ := lastMatchIndex_last schema model i rows j hL
    obtain ⟨hb1, hb2⟩ := lastMatchIndex_bounds schema model i rows
    have hjlen : j < rows.length := by
      rw [hL] at hb2
      simp only [Int.ofNat_eq_natCast] at hb2
      omega
    refine ⟨hjlen, ?_, ?_⟩
    · rw [rangeCovers_getAtomRangesForRow]
      exact hq
    · intro k hk1 hk2
      rw [rangeCovers_getAtomRangesForRow]
      exact hafter k hk1 hk2

theorem C2_witness :
    (getRowForEachAtom .residueRange witnessModel [witnessRow1, witnessRow2]).length =
      witnessModel.atoms.length ∧
    (((getRowForEachAtom .residueRange witnessModel [witnessRow1, witnessRow2]).get? 1 =
        some (-1) ↔
      ∀ j, j < ([witnessRow1, witnessRow2] : List AnnotationRow).length →
        rangeCovers
          (getAtomRangesForRow .residueRange witnessModel
            (([witnessRow1, witnessRow2] : List AnnotationRow).getD j emptyRow)) 1 = false) ∧
    (∀ j : Nat,
      (getRowForEachAtom .residueRange witnessModel [witnessRow1, witnessRow2]).get? 1 =
        some (Int.ofNat j) →
      j < ([witnessRow1, witnessRow2] : List AnnotationRow).length ∧
      rangeCovers
        (getAtomRangesForRow .residueRange witnessModel
          (([witnessRow1, witnessRow2] : List AnnotationRow).getD j emptyRow)) 1 = true ∧
      ∀ k, j < k → k < ([witnessRow1, witnessRow2] : List AnnotationRow).length →
        rangeCovers
          (getAtomRangesForRow .residueRange witnessModel
            (([witnessRow1, witnessRow2] : List AnnotationRow).getD k emptyRow)) 1 = false)) :=
  ⟨(C2_last_match_wins .residueRange witnessModel [witnessRow1, witnessRow2]).1,
   (C2_last_match_wins .residueRange witnessModel [witnessRow1, witnessRow2]).2 1 (by decide)⟩

/-- C9: under every schema other than whole-structure, a row whose
discriminating selector fields (the schema's field vocabulary) are all absent
matches no atom and selects no range (it is not a wildcard); a whole-structure
row matches unconditionally; and a residue-range row whose numeric begin
exceeds its end matches no atom and selects no range, raising no error. -/
theorem C9_absent_fields_match_nothing :
    (∀ schema : AnnotationSchema, schema ≠ .wholeStructure →
      ∀ row : AnnotationRow,
        (∀ f ∈ FieldsForSchemas schema, fieldPresentInRow row f = false) →
        ∀ (model : Model) (iAtom : Nat),
          atomQualifies schema model iAtom row = false ∧
          getAtomRangesForRow schema model row = []) ∧
    (∀ (row : AnnotationRow) (b e : Int), row.beg_label_seq_id = some b →
      row.end_label_seq_id = some e → e < b →
      ∀ (model : Model) (iAtom : Nat),
        atomQualifies .residueRange model iAtom row = false ∧
        getAtomRangesForRow .residueRange model row = []) ∧
    (∀ (row : AnnotationRow) (b e : Int), row.beg_auth_seq_id = some b →
      row.end_auth_seq_id = some e → e < b →
      ∀ (model : Model) (iAtom : Nat),
        atomQualifies .authResidueRange model iAtom row = false ∧
        getAtomRangesForRow .authResidueRange model row = []) ∧
    (∀ (model : Model) (iAtom : Nat), iAtom < model.atoms.length →
      ∀ row : AnnotationRow, atomQualifies .wholeStructure model iAtom row = true) := by
  refine ⟨?_, ?_, ?_, ?_⟩
  · intro schema hs row habs model iAtom
    have hq : ∀ k, atomQualifies schema model k row = false := by
      intro k
      unfold atomQualifies
      cases hg : model.atoms.get? k with
      | none => rfl
      | some atom =>
          have h1 : decide (schema = AnnotationSchema.wholeStructure) = false :=
            decide_eq_false hs
          have h2 : (FieldsForSchemas schema).any (fieldPresentInRow row) = false := by
            rw [Bool.eq_false_iff]
            intro hany
            obtain ⟨f, hf, hpf⟩ := List.any_eq_true.mp hany
            rw [habs f hf] at hpf
            exact Bool.false_ne_true hpf
          rw [h1, h2]
          simp
    exact ⟨hq iAtom, runsOf_nil_of_false _ _ (fun i _ => hq i)⟩
  · intro row b e hb he hbe model iAtom
    have hq : ∀ k, atomQualifies .residueRange model k row = false := by
      intro k
      unfold atomQualifies
      cases hg : model.atoms.get? k with
      | none => rfl
      | some atom =>
          rw [Bool.eq_false_iff]
          intro htrue
          rw [Bool.and_eq_true] at htrue
          have hall := htrue.2
          simp only [FieldsForSchemas, List.all_cons, List.all_nil, Bool.and_eq_true,
            fieldConstraintHolds, hb, he, Option.all_some, decide_eq_true_eq] at hall
          omega
    exact ⟨hq iAtom, runsOf_nil_of_false _ _ (fun i _ => hq i)⟩
  · intro row b e hb he hbe model iAtom
    have hq : ∀ k, atomQualifies .authResidueRange model k row = false := by
      intro k
      unfold atomQualifies
      cases hg : model.atoms.get? k with
      | none => rfl
      | some atom =>
          rw [Bool.eq_false_iff]
          intro htrue
          rw [Bool.and_eq_true] at htrue
          have hall := htrue.2
          simp only [FieldsForSchemas, List.all_cons, List.all_nil, Bool.and_eq_true,
            fieldConstraintHolds, hb, he, Option.all_some, decide_eq_true_eq] at hall
          omega
    exact ⟨hq iAtom, runsOf_nil_of_false _ _ (fun i _ => hq i)⟩
  · intro model iAtom hi row
    unfold atomQualifies
    rw [List.get?_eq_get hi]
    simp [FieldsForSchemas]

theorem C9_witness :
    (AnnotationSchema.chain ≠ .wholeStructure) ∧
    (∀ f ∈ FieldsForSchemas .chain, fieldPresentInRow emptyRow f = false) ∧
    (atomQualifies .chain witnessModel 0 emptyRow = false ∧
      getAtomRangesForRow .chain witnessModel emptyRow = []) :=
  ⟨by decide, by decide,
   C9_absent_fields_match_nothing.1 .chain (by decide) emptyRow (by decide) witnessModel 0⟩

theorem lookupByKey_append_right {α : Type} (k : String) (v : α) :
    ∀ l : List (String × α), lookupByKey k l = none →
    lookupByKey k (l ++ [(k, v)]) = some v := by
  intro l
  induction l with
  | nil => intro _; simp [lookupByKey]
  | cons hd tl ih =>
      intro h
      obtain ⟨k', v'⟩ := hd
      by_cases hk : k' = k
      · rw [lookupByKey, if_pos hk] at h
        exact Option.noConfusion h
      · rw [lookupByKey, if_neg hk] at h
        rw [List.cons_append, lookupByKey, if_neg hk]
        exact ih h

theorem getIndexedModel_hit (a : Annotation) (model : Model) (arr : List Int)
    (h : lookupByKey model.id a.indexedModels = some arr) :
    a.getIndexedModel model = .ok (arr, a) := by
  unfold Annotation.getIndexedModel
  rw [h]

/-- C3: querying the row-resolution mapping through getIndexedModel is cached
per model identity token: when the cache holds an entry for the model id, the
stored array is returned as is and the cache is not touched (no recomputation,
no eviction, no replacement); on a cache miss the mapping is computed once
with getRowForEachAtom, appended to the cache, and every later call for the
same model id returns that identical stored array with the state unchanged. -/
theorem C3_indexed_model_cached_once (a : Annotation) (model : Model) :
    (∀ arr, lookupByKey model.id a.indexedModels = some arr →
      a.getIndexedModel model = .ok (arr, a)) ∧
    (lookupByKey model.id a.indexedModels = none →
      ∀ rows, a.getRows = .ok rows →
        a.getIndexedModel model =
          .ok (getRowForEachAtom a.schema model rows,
            ⟨a.data, a.schema,
              a.indexedModels ++ [(model.id, getRowForEachAtom a.schema model rows)]⟩)) ∧
    (∀ arr a', a.getIndexedModel model = .ok (arr, a') →
      lookupByKey model.id a'.indexedModels = some arr ∧
      a'.getIndexedModel model = .ok (arr, a')) := by
  refine ⟨getIndexedModel_hit a model, ?_, ?_⟩
  · intro hmiss rows hrows
    unfold Annotation.getIndexedModel
    rw [hmiss, hrows]
  · intro arr a' h
    unfold Annotation.getIndexedModel at h
    cases hl : lookupByKey model.id a.indexedModels with
    | some arr0 =>
        rw [hl] at h
        have h1 : arr0 = arr ∧ a = a' := by
          have := Except.ok.inj h
          exact ⟨congrArg Prod.fst this, congrArg Prod.snd this⟩
        obtain ⟨rfl, rfl⟩ := h1
        exact ⟨hl, getIndexedModel_hit a model arr0 hl⟩
    | none =>
        rw [hl] at h
        cases hrows : a.getRows with
        | error e =>
            rw [hrows] at h
            exact Except.noConfusion h
        | ok rows =>
            rw [hrows] at h
            have h1 := Except.ok.inj h
            have harr : getRowForEachAtom a.schema model rows = arr :=
              congrArg Prod.fst h1
            have ha' : (⟨a.data, a.schema,
                a.indexedModels ++ [(model.id, getRowForEachAtom a.schema model rows)]⟩ :
                  Annotation) = a' :=
              congrArg Prod.snd h1
            have hstored : lookupByKey model.id a'.indexedModels = some arr := by
              rw [← ha', ← harr]
              exact lookupByKey_append_right model.id _ a.indexedModels hl
            exact ⟨hstored, getIndexedModel_hit a' model arr hstored⟩

/-- Fixture annotation with a prefilled row-resolution cache. -/
def witnessAnnotCached : Annotation :=
  ⟨.json (.obj []), .chain, [("model-1", [5])]⟩

theorem C3_witness :
    lookupByKey witnessModel.id witnessAnnotCached.indexedModels = some [5] ∧
    witnessAnnotCached.getIndexedModel witnessModel = .ok ([5], witnessAnnotCached) :=
  ⟨rfl, (C3_indexed_model_cached_once witnessAnnotCached witnessModel).1 [5] rfl⟩

theorem jsIndex_neg (v : Json) (i : Int) (h : i < 0) : jsIndex v i = none := by
  cases v with
  | arr xs =>
      simp only [jsIndex]
      rw [if_neg (by omega)]
  | null => rfl
  | bool b => rfl
  | num n => rfl
  | str s => rfl
  | obj kvs => rfl

/-- C5: the field accessor resolves every missing-data situation to undefined
and never throws for well-formed JSON sources: getValueFromJson yields
undefined at row index -1 for both JSON shapes, at any row whose object lacks
the key, and for a column name missing from an object source; getValueFromCif
yields undefined at row index -1, when the named column is absent, and when
the column's value kind at the row is not Present. -/
theorem C5_field_accessor_undefined :
    (∀ (fieldName : String) (js : List Json),
      getValueFromJson (-1) fieldName (.arr js) = .ok none) ∧
    (∀ (fieldName : String) (kvs : List (String × Json)),
      getValueFromJson (-1) fieldName (.obj kvs) = .ok none) ∧
    (∀ (i : Int) (fieldName : String) (js : List Json),
      (∀ row ∈ js, jsGet row fieldName = none) →
      getValueFromJson i fieldName (.arr js) = .ok none) ∧
    (∀ (i : Int) (fieldName : String) (kvs : List (String × Json)),
      lookupByKey fieldName kvs = none →
      getValueFromJson i fieldName (.obj kvs) = .ok none) ∧
    (∀ (fieldName : String) (c : CifCategory),
      getValueFromCif (-1) fieldName c = none) ∧
    (∀ (i : Int) (fieldName : String) (c : CifCategory),
      c.getField fieldName = none → getValueFromCif i fieldName c = none) ∧
    (∀ (i : Int) (fieldName : String) (c : CifCategory) (col : CifField),
      c.getField fieldName = some col → col.valueKind i ≠ .Present →
      getValueFromCif i fieldName c = none) := by
  refine ⟨?_, ?_, ?_, ?_, ?_, ?_, ?_⟩
  · intro fieldName js
    rfl
  · intro fieldName kvs
    simp only [getValueFromJson]
    rw [jsIndex_neg _ _ (by omega)]
  · intro i fieldName js h
    simp only [getValueFromJson]
    cases hidx : jsIndex (.arr js) i with
    | none => rfl
    | some v =>
        have hv : v ∈ js := by
          simp only [jsIndex] at hidx
          by_cases h0 : (0 : Int) ≤ i
          · rw [if_pos h0] at hidx
            exact List.get?_mem hidx
          · rw [if_neg h0] at hidx
            exact Option.noConfusion hidx
        cases v with
        | null => rfl
        | bool b => exact congrArg Except.ok (h _ hv)
        | num n => exact congrArg Except.ok (h _ hv)
        | str s => exact congrArg Except.ok (h _ hv)
        | arr xs => exact congrArg Except.ok (h _ hv)
        | obj kvs => exact congrArg Except.ok (h _ hv)
  · intro i fieldName kvs h
    simp only [getValueFromJson, jsGet, h]
    have hidx : jsIndex (coalesce none (Json.arr [])) i = none := by
      show jsIndex (Json.arr []) i = none
      simp only [jsIndex]
      by_cases h0 : (0 : Int) ≤ i
      · rw [if_pos h0]; rfl
      · rw [if_neg h0]
    rw [hidx]
  · intro fieldName c
    unfold getValueFromCif
    cases hf : c.getField fieldName with
    | none => rfl
    | some col => rfl
  · intro i fieldName c h
    unfold getValueFromCif
    rw [h]
  · intro i fieldName c col h hkind
    unfold getValueFromCif
    rw [h]
    simp only [ne_eq, hkind, not_false_eq_true, if_pos]

theorem C5_witness :
    lookupByKey "color" ([] : List (String × Json)) = none ∧
    getValueFromJson 0 "color" (.obj []) = .ok none :=
  ⟨rfl, C5_field_accessor_undefined.2.2.2.1 0 "color" [] rfl⟩

theorem lookupByKey_eq_none_of_not_mem {α : Type} (key : String) :
    ∀ l : List (String × α), key ∉ l.map Prod.fst → lookupByKey key l = none := by
  intro l
  induction l with
  | nil => intro _; rfl
  | cons hd tl ih =>
      intro h
      obtain ⟨k', v'⟩ := hd
      rw [List.map_cons, List.mem_cons] at h
      push_neg at h
      rw [lookupByKey, if_neg (fun he => h.1 he.symm)]
      exact ih h.2

theorem mem_keys_filterMap_present (i : Int) (key : String) :
    ∀ tl : List (String × CifField),
    key ∈ (tl.filterMap (fun kv =>
        if kv.2.valueKind i = .Present then some (kv.1, kv.2.strAt i) else none)).map Prod.fst →
    key ∈ tl.map Prod.fst := by
  intro tl
  induction tl with
  | nil => intro h; simpa using h
  | cons hd tl ih =>
      intro h
      rw [List.filterMap_cons] at h
      by_cases hp : hd.2.valueKind i = .Present
      · rw [if_pos hp, List.map_cons, List.mem_cons] at h
        rcases h with h | h
        · rw [List.map_cons, List.mem_cons]; exact Or.inl h
        · rw [List.map_cons, List.mem_cons]; exact Or.inr (ih h)
      · rw [if_neg hp] at h
        rw [List.map_cons, List.mem_cons]
        exact Or.inr (ih h)

theorem presentRow_lookup (i : Int) :
    ∀ columns : List (String × CifField), (columns.map Prod.fst).Nodup →
    ∀ (name : String) (col : CifField), (name, col) ∈ columns →
    lookupByKey name (columns.filterMap (fun kv =>
        if kv.2.valueKind i = .Present then some (kv.1, kv.2.strAt i) else none)) =
      (if col.valueKind i = .Present then some (col.strAt i) else none) := by
  intro columns
  induction columns with
  | nil => intro _ name col h; exact absurd h (List.not_mem_nil _)
  | cons hd tl ih =>
      intro hnodup name col hmem
      obtain ⟨k', c'⟩ := hd
      rw [List.map_cons, List.nodup_cons] at hnodup
      rcases List.mem_cons.mp hmem with heq | hmem'
      · rw [Prod.mk.injEq] at heq
        obtain ⟨rfl, rfl⟩ := heq
        rw [List.filterMap_cons]
        by_cases hp : col.valueKind i = .Present
        · rw [if_pos hp, if_pos hp, lookupByKey, if_pos rfl]
        · rw [if_neg hp, if_neg hp]
          exact lookupByKey_eq_none_of_not_mem name _
            (fun hin => hnodup.1 (mem_keys_filterMap_present i name tl hin))
      · have hname : name ∈ tl.map Prod.fst :=
          List.mem_map.mpr ⟨(name, col), hmem', rfl⟩
        have hk' : ¬ (k' = name) := fun h => hnodup.1 (h ▸ hname)
        rw [List.filterMap_cons]
        by_cases hp : c'.valueKind i = .Present
        · rw [if_pos hp, lookupByKey, if_neg hk']
          exact ih hnodup.2 name col hmem'
        · rw [if_neg hp]
          exact ih hnodup.2 name col hmem'

theorem getRowsFromTable_getD (columns : List (String × CifField)) (nRows i : Nat)
    (h : i < nRows) :
    (getRowsFromTable columns nRows).getD i [] =
      columns.filterMap (fun kv =>
        if kv.2.valueKind (i : Int) = .Present then some (kv.1, kv.2.strAt (i : Int))
        else none) := by
  unfold getRowsFromTable
  rw [List.getD_eq_getD_get?, List.get?_map, List.get?_range h]
  rfl

/-- C8: the rows produced by getRowsFromCif / getRowsFromTable omit every field
whose column value kind at that row is not Present (the CIF period and
question-mark markers): within a row, a field name resolves to the column's
string value exactly when the value kind at that row is Present, and to
nothing (rather than a type default) otherwise; getRowsFromCif is
getRowsFromTable applied to the schema-restricted table. -/
theorem C8_rows_omit_non_present_fields :
    (∀ (columns : List (String × CifField)) (nRows i : Nat), i < nRows →
      (columns.map Prod.fst).Nodup →
      ∀ (name : String) (col : CifField), (name, col) ∈ columns →
        lookupByKey name ((getRowsFromTable columns nRows).getD i []) =
          (if col.valueKind (i : Int) = .Present then some (col.strAt (i : Int))
           else none)) ∧
    (∀ (data : CifCategory) (schema : AnnotationSchema),
      getRowsFromCif data schema =
        getRowsFromTable (toTable (FieldsForSchemas schema) data) data.rowCount) := by
  constructor
  · intro columns nRows i hi hnodup name col hmem
    rw [getRowsFromTable_getD columns nRows i hi]
    exact presentRow_lookup (i : Int) columns hnodup name col hmem
  · intro data schema
    rfl

/-- Fixture CIF column with one Present and one NotPresent row. -/
def witnessCifField : CifField := ⟨[.Present, .NotPresent], ["x", "y"]⟩

theorem C8_witness :
    1 < 2 ∧
    ((([("f", witnessCifField)] : List (String × CifField)).map Prod.fst).Nodup ∧
      ("f", witnessCifField) ∈ ([("f", witnessCifField)] : List (String × CifField))) ∧
    lookupByKey "f" ((getRowsFromTable [("f", witnessCifField)] 2).getD 1 []) =
      (if witnessCifField.valueKind (1 : Int) = .Present
       then some (witnessCifField.strAt (1 : Int)) else none) :=
  ⟨by decide, ⟨by decide, by decide⟩,
   C8_rows_omit_non_present_fields.1 [("f", witnessCifField)] 2 1 (by decide) (by decide)
     "f" witnessCifField (by decide)⟩

theorem fromSpecCifBlock_header (spec : AnnotationSpec) (hdr : String) (b0 : CifBlock)
    (rest : List CifBlock) (h : spec.cifBlock = .header hdr) :
    fromSpecCifBlock spec b0 rest =
      (match (b0 :: rest).find? (fun b => decide (b.header = hdr)) with
       | some b => .ok b
       | none => .error ("CIF block with header " ++ hdr ++ " not found")) := by
  unfold fromSpecCifBlock
  rw [h]

theorem fromSpecCifBlock_index (spec : AnnotationSpec) (i : Nat) (b0 : CifBlock)
    (rest : List CifBlock) (h : spec.cifBlock = .index i) :
    fromSpecCifBlock spec b0 rest =
      (match (b0 :: rest).get? i with
       | some b => .ok b
       | none => .error ("CIF block with index " ++ toString i ++ " not found")) := by
  unfold fromSpecCifBlock
  rw [h]

theorem fromSpecCifBlock_first (spec : AnnotationSpec) (b0 : CifBlock)
    (rest : List CifBlock) (h : spec.cifBlock = .first) :
    fromSpecCifBlock spec b0 rest = .ok b0 := by
  unfold fromSpecCifBlock
  rw [h]

theorem fromSpecCifCategory_explicit (spec : AnnotationSpec) (block : CifBlock)
    (c : String) (h1 : spec.cifCategory = some c) :
    fromSpecCifCategory spec block =
      (if c = "" then .error "There are no categories in CIF block"
       else
        match lookupByKey c block.categories with
        | none => .error ("CIF category " ++ c ++ " not found")
        | some category => .ok ⟨.cif category, spec.schema, []⟩) := by
  unfold fromSpecCifCategory
  rw [h1]

theorem fromSpecCifCategory_default (spec : AnnotationSpec) (block : CifBlock)
    (h1 : spec.cifCategory = none) :
    fromSpecCifCategory spec block =
      (match (block.categories.map Prod.fst).head? with
       | none => .error "There are no categories in CIF block"
       | some cname =>
           if cname = "" then .error "There are no categories in CIF block"
           else
            match lookupByKey cname block.categories with
            | none => .error ("CIF category " ++ cname ++ " not found")
            | some category => .ok ⟨.cif category, spec.schema, []⟩) := by
  unfold fromSpecCifCategory
  rw [h1]

theorem fromSpec_cif_cons (spec : AnnotationSpec) (b0 : CifBlock) (rest : List CifBlock) :
    Annotation.fromSpec spec (.cif ⟨b0 :: rest⟩) =
      (match fromSpecCifBlock spec b0 rest with
       | .error e => .error e
       | .ok block => fromSpecCifCategory spec block) := rfl

/-- C7: Annotation.fromSpec selects the CIF block by header string, by 0-based
index, or defaults to the first block; it throws when the file has no blocks,
when no block has the requested header, or when the index is out of range; it
then selects the category named in the spec or the block's first declared
category, throwing when the block has no categories or the named category is
absent; on every failure no Annotation value is produced (the result is an
error), and JSON files produce an Annotation directly. -/
theorem C7_fromSpec_selection :
    (∀ (spec : AnnotationSpec) (d : Json),
      Annotation.fromSpec spec (.json d) = .ok ⟨.json d, spec.schema, []⟩) ∧
    (∀ spec : AnnotationSpec,
      Annotation.fromSpec spec (.cif ⟨[]⟩) = .error "No block in CIF") ∧
    (∀ (spec : AnnotationSpec) (hdr : String) (b0 : CifBlock) (rest : List CifBlock),
      spec.cifBlock = .header hdr → (∀ b ∈ b0 :: rest, ¬ (b.header = hdr)) →
      Annotation.fromSpec spec (.cif ⟨b0 :: rest⟩) =
        .error ("CIF block with header " ++ hdr ++ " not found")) ∧
    (∀ (spec : AnnotationSpec) (i : Nat) (b0 : CifBlock) (rest : List CifBlock),
      spec.cifBlock = .index i → (b0 :: rest).length ≤ i →
      Annotation.fromSpec spec (.cif ⟨b0 :: rest⟩) =
        .error ("CIF block with index " ++ toString i ++ " not found")) ∧
    (∀ (spec : AnnotationSpec) (b0 : CifBlock) (rest : List CifBlock) (c : String)
        (cat : CifCategory),
      spec.cifBlock = .first → spec.cifCategory = some c → ¬ (c = "") →
      lookupByKey c b0.categories = some cat →
      Annotation.fromSpec spec (.cif ⟨b0 :: rest⟩) = .ok ⟨.cif cat, spec.schema, []⟩) ∧
    (∀ (spec : AnnotationSpec) (b0 : CifBlock) (rest : List CifBlock) (c : String),
      spec.cifBlock = .first → spec.cifCategory = some c → ¬ (c = "") →
      lookupByKey c b0.categories = none →
      Annotation.fromSpec spec (.cif ⟨b0 :: rest⟩) =
        .error ("CIF category " ++ c ++ " not found")) ∧
    (∀ (spec : AnnotationSpec) (b0 : CifBlock) (rest : List CifBlock),
      spec.cifBlock = .first → spec.cifCategory = none → b0.categories = [] →
      Annotation.fromSpec spec (.cif ⟨b0 :: rest⟩) =
        .error "There are no categories in CIF block") ∧
    (∀ (spec : AnnotationSpec) (b0 : CifBlock) (rest : List CifBlock) (cn : String)
        (cat : CifCategory) (crest : List (String × CifCategory)),
      spec.cifBlock = .first → spec.cifCategory = none →
      b0.categories = (cn, cat) :: crest → ¬ (cn = "") →
      Annotation.fromSpec spec (.cif ⟨b0 :: rest⟩) = .ok ⟨.cif cat, spec.schema, []⟩) ∧
    (∀ (spec : AnnotationSpec) (hdr : String) (b0 : CifBlock) (rest : List CifBlock)
        (b : CifBlock) (c : String) (cat : CifCategory),
      spec.cifBlock = .header hdr →
      (b0 :: rest).find? (fun x => decide (x.header = hdr)) = some b →
      spec.cifCategory = some c → ¬ (c = "") → lookupByKey c b.categories = some cat →
      Annotation.fromSpec spec (.cif ⟨b0 :: rest⟩) = .ok ⟨.cif cat, spec.schema, []⟩) ∧
    (∀ (spec : AnnotationSpec) (i : Nat) (b0 : CifBlock) (rest : List CifBlock)
        (b : CifBlock) (c : String) (cat : CifCategory),
      spec.cifBlock = .index i → (b0 :: rest).get? i = some b →
      spec.cifCategory = some c → ¬ (c = "") → lookupByKey c b.categories = some cat →
      Annotation.fromSpec spec (.cif ⟨b0 :: rest⟩) = .ok ⟨.cif cat, spec.schema, []⟩) := by
  refine ⟨?_, ?_, ?_, ?_, ?_, ?_, ?_, ?_, ?_, ?_⟩
  · intro spec d; rfl
  · intro spec; rfl
  · intro spec hdr b0 rest h1 h2
    rw [fromSpec_cif_cons, fromSpecCifBlock_header spec hdr b0 rest h1]
    have hfind : (b0 :: rest).find? (fun b => decide (b.header = hdr)) = none := by
      apply List.find?_eq_none.mpr
      intro b hb
      simpa using h2 b hb
    rw [hfind]
  · intro spec i b0 rest h1 h2
    rw [fromSpec_cif_cons, fromSpecCifBlock_index spec i b0 rest h1]
    have hget : (b0 :: rest).get? i = none := List.get?_eq_none.mpr h2
    rw [hget]
  · intro spec b0 rest c cat h1 h2 h3 h4
    rw [fromSpec_cif_cons, fromSpecCifBlock_first spec b0 rest h1]
    show fromSpecCifCategory spec b0 = _
    rw [fromSpecCifCategory_explicit spec b0 c h2, if_neg h3, h4]
  · intro spec b0 rest c h1 h2 h3 h4
    rw [fromSpec_cif_cons, fromSpecCifBlock_first spec b0 rest h1]
    show fromSpecCifCategory spec b0 = _
    rw [fromSpecCifCategory_explicit spec b0 c h2, if_neg h3, h4]
  · intro spec b0 rest h1 h2 h3
    rw [fromSpec_cif_cons, fromSpecCifBlock_first spec b0 rest h1]
    show fromSpecCifCategory spec b0 = _
    rw [fromSpecCifCategory_default spec b0 h2, h3]
    rfl
  · intro spec b0 rest cn cat crest h1 h2 h3 h4
    rw [fromSpec_cif_cons, fromSpecCifBlock_first spec b0 rest h1]
    show fromSpecCifCategory spec b0 = _
    rw [fromSpecCifCategory_default spec b0 h2, h3]
    simp only [List.map_cons, List.head?_cons]
    rw [if_neg h4]
    have hlk : lookupByKey cn ((cn, cat) :: crest) = some cat := by
      rw [lookupByKey, if_pos rfl]
    rw [hlk]
  · intro spec hdr b0 rest b c cat h1 h2 h3 h4 h5
    rw [fromSpec_cif_cons, fromSpecCifBlock_header spec hdr b0 rest h1, h2]
    show fromSpecCifCategory spec b = _
    rw [fromSpecCifCategory_explicit spec b c h3, if_neg h4, h5]
  · intro spec i b0 rest b c cat h1 h2 h3 h4 h5
    rw [fromSpec_cif_cons, fromSpecCifBlock_index spec i b0 rest h1, h2]
    show fromSpecCifCategory spec b = _
    rw [fromSpecCifCategory_explicit spec b c h3, if_neg h4, h5]

/-- Fixture CIF category for the fromSpec witness. -/
def witnessCat : CifCategory := ⟨"catA", [("f", witnessCifField)], 2⟩

/-- Fixture CIF block for the fromSpec witness. -/
def witnessBlock : CifBlock := ⟨"B1", [("catA", witnessCat)]⟩

/-- Fixture spec for the fromSpec witness. -/
def witnessSpec : AnnotationSpec := ⟨"u", .cif, .chain, .first, some "catA", "id1"⟩

theorem C7_witness :
    witnessSpec.cifBlock = .first ∧ witnessSpec.cifCategory = some "catA" ∧
    ¬ ("catA" = "") ∧ lookupByKey "catA" witnessBlock.categories = some witnessCat ∧
    Annotation.fromSpec witnessSpec (.cif ⟨[witnessBlock]⟩) =
      .ok ⟨.cif witnessCat, witnessSpec.schema, []⟩ :=
  ⟨rfl, rfl, by decide, rfl,
   C7_fromSpec_selection.2.2.2.2.1 witnessSpec witnessBlock [] "catA" witnessCat rfl rfl
     (by decide) rfl⟩

theorem getRowsFromJson_obj (schema : AnnotationSchema) (kvs : List (String × Json))
    (k0 : String) (krest : List String)
    (hkeys : (kvs.map Prod.fst).filter (fun k => (FieldsForSchemas schema).contains k) =
      k0 :: krest) :
    getRowsFromJson (.obj kvs) schema =
      (if (k0 :: krest).any (fun k =>
            jsLength (coalesce (jsGet (.obj kvs) k) .null) ≠
            jsLength (coalesce (jsGet (.obj kvs) k0) .null)) then
        .error "FormatError: arrays must have the same length."
      else
        .ok ((List.range
            ((jsLength (coalesce (jsGet (.obj kvs) k0) .null)).getD 0)).map
          (fun i => (k0 :: krest).map
            (fun k => (k, jsElementAt (coalesce (jsGet (.obj kvs) k) .null) i))))) := by
  unfold getRowsFromJson
  simp only [jsKeys]
  rw [hkeys]

/-- C6: for a JSON object-of-arrays source, when the columns named by the
schema-vocabulary keys do not all share the length of the first such column
the load fails with a format error, and when they all have length n the
parser produces exactly n rows, row i holding, for each key in key order, the
i-th element of that key's column. -/
theorem C6_object_of_arrays (schema : AnnotationSchema) (kvs : List (String × Json))
    (k0 : String) (krest : List String)
    (hkeys : (kvs.map Prod.fst).filter (fun k => (FieldsForSchemas schema).contains k) =
      k0 :: krest) :
    ((∃ k ∈ k0 :: krest,
        jsLength (coalesce (jsGet (.obj kvs) k) .null) ≠
        jsLength (coalesce (jsGet (.obj kvs) k0) .null)) →
      getRowsFromJson (.obj kvs) schema =
        .error "FormatError: arrays must have the same length.") ∧
    (∀ n : Nat,
      (∀ k ∈ k0 :: krest, jsLength (coalesce (jsGet (.obj kvs) k) .null) = some n) →
      ∃ rows, getRowsFromJson (.obj kvs) schema = .ok rows ∧
        rows.length = n ∧
        ∀ i, i < n →
          rows.get? i = some ((k0 :: krest).map
            (fun k => (k, jsElementAt (coalesce (jsGet (.obj kvs) k) .null) i)))) := by
  have hred := getRowsFromJson_obj schema kvs k0 krest hkeys
  constructor
  · rintro ⟨k, hk, hne⟩
    rw [hred, if_pos ?_]
    exact List.any_eq_true.mpr ⟨k, hk, by simpa using hne⟩
  · intro n hall
    have hn0 : jsLength (coalesce (jsGet (.obj kvs) k0) .null) = some n :=
      hall k0 (List.mem_cons_self _ _)
    have hany : ¬ (((k0 :: krest).any fun k =>
        decide (jsLength (coalesce (jsGet (.obj kvs) k) .null) ≠
          jsLength (coalesce (jsGet (.obj kvs) k0) .null))) = true) := by
      intro hx
      obtain ⟨k, hk, hne⟩ := List.any_eq_true.mp hx
      rw [decide_eq_true_eq] at hne
      exact hne (by rw [hall k hk, hn0])
    rw [hred, if_neg hany]
    refine ⟨_, rfl, ?_, ?_⟩
    · rw [hn0]
      simp
    · intro i hi
      rw [hn0]
      have : (Option.getD (some n) 0) = n := rfl
      rw [this, List.get?_map, List.get?_range hi]
      rfl

theorem C6_witness :
    ((([("label_asym_id", Json.arr [.str "A", .str "B"])] :
        List (String × Json)).map Prod.fst).filter
      (fun k => (FieldsForSchemas .chain).contains k) = ["label_asym_id"]) ∧
    (∀ k ∈ ["label_asym_id"],
      jsLength (coalesce
        (jsGet (.obj [("label_asym_id", Json.arr [.str "A", .str "B"])]) k) .null) =
        some 2) ∧
    ∃ rows,
      getRowsFromJson (.obj [("label_asym_id", Json.arr [.str "A", .str "B"])]) .chain =
        .ok rows ∧
      rows.length = 2 ∧
      ∀ i, i < 2 →
        rows.get? i = some ((["label_asym_id"] : List String).map
          (fun k => (k, jsElementAt (coalesce
            (jsGet (.obj [("label_asym_id", Json.arr [.str "A", .str "B"])]) k) .null) i))) :=
  ⟨by decide, by decide,
   (C6_object_of_arrays .chain [("label_asym_id", Json.arr [.str "A", .str "B"])]
     "label_asym_id" [] (by decide)).2 2 (by decide)⟩

instance : Inhabited AnnotationSpec :=
  ⟨⟨"", .json, .wholeStructure, .first, none, ""⟩⟩

theorem lookupByKey_isSome_iff {α : Type} (key : String) :
    ∀ l : List (String × α), (lookupByKey key l).isSome ↔ key ∈ l.map Prod.fst := by
  intro l
  induction l with
  | nil => simp [lookupByKey]
  | cons hd tl ih =>
      obtain ⟨k', v'⟩ := hd
      by_cases hk : k' = key
      · subst hk
        simp [lookupByKey]
      · rw [lookupByKey, if_neg hk, List.map_cons, List.mem_cons]
        rw [ih]
        constructor
        · intro h; exact Or.inr h
        · rintro (h | h)
          · exact absurd h.symm hk
          · exact h

theorem lookupByKey_append_some {α : Type} (key : String) (v : α) :
    ∀ (l l' : List (String × α)), lookupByKey key l = some v →
    lookupByKey key (l ++ l') = some v := by
  intro l l'
  induction l with
  | nil => intro h; exact Option.noConfusion h
  | cons hd tl ih =>
      intro h
      obtain ⟨k', v'⟩ := hd
      by_cases hk : k' = key
      · rw [lookupByKey, if_pos hk] at h
        rw [List.cons_append, lookupByKey, if_pos hk]
        exact h
      · rw [lookupByKey, if_neg hk] at h
        rw [List.cons_append, lookupByKey, if_neg hk]
        exact ih h

theorem lookupByKey_append_none {α : Type} (key : String) :
    ∀ (l l' : List (String × α)), lookupByKey key l = none →
    lookupByKey key (l ++ l') = lookupByKey key l' := by
  intro l l'
  induction l with
  | nil => intro _; rfl
  | cons hd tl ih =>
      intro h
      obtain ⟨k', v'⟩ := hd
      by_cases hk : k' = key
      · rw [lookupByKey, if_pos hk] at h
        exact Option.noConfusion h
      · rw [lookupByKey, if_neg hk] at h
        rw [List.cons_append, lookupByKey, if_neg hk]
        exact ih h

theorem bp_nodup (fetch : AnnotationSpec → AnnotationFile) :
    ∀ (sources : List AnnotationSpec) (m : List (String × AnnotationFile)),
    (m.map Prod.fst).Nodup →
    (((sources.foldl
        (fun m src =>
          if (lookupByKey (sourceKey src) m).isSome then m
          else m ++ [(sourceKey src, fetch src)]) m).map Prod.fst).Nodup) := by
  intro sources
  induction sources with
  | nil => intro m h; exact h
  | cons s rest ih =>
      intro m h
      rw [List.foldl_cons]
      by_cases hs : (lookupByKey (sourceKey s) m).isSome
      · rw [if_pos hs]
        exact ih m h
      · rw [if_neg hs]
        apply ih
        rw [List.map_append, List.map_cons, List.map_nil]
        apply List.Nodup.append h (List.nodup_singleton _)
        intro a ha hb
        rw [List.mem_singleton] at hb
        subst hb
        exact hs (((lookupByKey_isSome_iff (sourceKey s) m).mpr ha))

theorem bp_entries (fetch : AnnotationSpec → AnnotationFile) :
    ∀ (sources : List AnnotationSpec) (m : List (String × AnnotationFile))
      (e : String × AnnotationFile),
    e ∈ sources.foldl
        (fun m src =>
          if (lookupByKey (sourceKey src) m).isSome then m
          else m ++ [(sourceKey src, fetch src)]) m →
    e ∈ m ∨ ∃ src ∈ sources, sourceKey src = e.1 ∧ e.2 = fetch src := by
  intro sources
  induction sources with
  | nil => intro m e h; exact Or.inl h
  | cons s rest ih =>
      intro m e h
      rw [List.foldl_cons] at h
      by_cases hs : (lookupByKey (sourceKey s) m).isSome
      · rw [if_pos hs] at h
        rcases ih m e h with h1 | ⟨src, hsrc, hk, hv⟩
        · exact Or.inl h1
        · exact Or.inr ⟨src, List.mem_cons_of_mem _ hsrc, hk, hv⟩
      · rw [if_neg hs] at h
        rcases ih _ e h with h1 | ⟨src, hsrc, hk, hv⟩
        · rw [List.mem_append] at h1
          rcases h1 with h1 | h1
          · exact Or.inl h1
          · rw [List.mem_singleton] at h1
            subst h1
            exact Or.inr ⟨s, List.mem_cons_self _ _, rfl, rfl⟩
        · exact Or.inr ⟨src, List.mem_cons_of_mem _ hsrc, hk, hv⟩

theorem bp_lookup_mono (fetch : AnnotationSpec → AnnotationFile) :
    ∀ (sources : List AnnotationSpec) (m : List (String × AnnotationFile))
      (k : String) (v : AnnotationFile),
    lookupByKey k m = some v →
    lookupByKey k (sources.foldl
        (fun m src =>
          if (lookupByKey (sourceKey src) m).isSome then m
          else m ++ [(sourceKey src, fetch src)]) m) = some v := by
  intro sources
  induction sources with
  | nil => intro m k v h; exact h
  | cons s rest ih =>
      intro m k v h
      rw [List.foldl_cons]
      by_cases hs : (lookupByKey (sourceKey s) m).isSome
      · rw [if_pos hs]
        exact ih m k v h
      · rw [if_neg hs]
        exact ih _ k v (lookupByKey_append_some k v m _ h)

theorem bp_lookup_value (fetch : AnnotationSpec → AnnotationFile) :
    ∀ (sources : List AnnotationSpec) (m : List (String × AnnotationFile)) (k : String),
    lookupByKey k m = none → k ∈ sources.map sourceKey →
    ∃ src ∈ sources, sourceKey src = k ∧
      lookupByKey k (sources.foldl
        (fun m src =>
          if (lookupByKey (sourceKey src) m).isSome then m
          else m ++ [(sourceKey src, fetch src)]) m) = some (fetch src) := by
  intro sources
  induction sources with
  | nil => intro m k _ h; simp at h
  | cons s rest ih =>
      intro m k hnone hmem
      rw [List.foldl_cons]
      by_cases hk : sourceKey s = k
      · subst hk
        have hs : ¬ (lookupByKey (sourceKey s) m).isSome = true := by
          rw [hnone]; simp
        rw [if_neg hs]
        refine ⟨s, List.mem_cons_self _ _, rfl, ?_⟩
        apply bp_lookup_mono
        exact lookupByKey_append_right (sourceKey s) (fetch s) m hnone
      · have hmem' : k ∈ rest.map sourceKey := by
          rw [List.map_cons, List.mem_cons] at hmem
          rcases hmem with h | h
          · exact absurd h.symm hk
          · exact h
        by_cases hs : (lookupByKey (sourceKey s) m).isSome
        · rw [if_pos hs]
          obtain ⟨src, hsrc, hkeq, hval⟩ := ih m k hnone hmem'
          exact ⟨src, List.mem_cons_of_mem _ hsrc, hkeq, hval⟩
        · rw [if_neg hs]
          have hnone' : lookupByKey k (m ++ [(sourceKey s, fetch s)]) = none := by
            rw [lookupByKey_append_none k m _ hnone, lookupByKey, if_neg hk]
            rfl
          obtain ⟨src, hsrc, hkeq, hval⟩ := ih _ k hnone' hmem'
          exact ⟨src, List.mem_cons_of_mem _ hsrc, hkeq, hval⟩

/-- C4: getFileFromSources performs exactly one fetch per distinct
(format, url) key — the promise map has pairwise distinct keys, every stored
file is the fetch of a source carrying that key, and the key set of the map is
exactly the key set of the input list — and the returned array is aligned
with the input list: entry i is the file fetched for the key of source i. -/
theorem C4_one_fetch_per_key (fetch : AnnotationSpec → AnnotationFile)
    (sources : List AnnotationSpec) :
    (((buildPromises fetch sources).map Prod.fst).Nodup) ∧
    ((buildPromises fetch sources).length = (sources.map sourceKey).toFinset.card) ∧
    (∀ e ∈ buildPromises fetch sources,
      ∃ src ∈ sources, sourceKey src = e.1 ∧ e.2 = fetch src) ∧
    ((getFileFromSources fetch sources).length = sources.length) ∧
    (∀ i, i < sources.length → ∃ src ∈ sources,
      sourceKey src = sourceKey (sources.getD i default) ∧
      (getFileFromSources fetch sources).get? i = some (fetch src)) := by
  have hnodup : ((buildPromises fetch sources).map Prod.fst).Nodup :=
    bp_nodup fetch sources [] (by simp)
  have hentries : ∀ e ∈ buildPromises fetch sources,
      ∃ src ∈ sources, sourceKey src = e.1 ∧ e.2 = fetch src := by
    intro e he
    rcases bp_entries fetch sources [] e he with h | h
    · exact absurd h (List.not_mem_nil e)
    · exact h
  refine ⟨hnodup, ?_, hentries, ?_, ?_⟩
  · have hsets : ((buildPromises fetch sources).map Prod.fst).toFinset =
        (sources.map sourceKey).toFinset := by
      apply Finset.ext
      intro k
      rw [List.mem_toFinset, List.mem_toFinset]
      constructor
      · intro hk
        obtain ⟨e, he, hke⟩ := List.mem_map.mp hk
        obtain ⟨src, hsrc, hkeq, _⟩ := hentries e he
        exact List.mem_map.mpr ⟨src, hsrc, by rw [hkeq, hke]⟩
      · intro hk
        obtain ⟨src, hsrc, hkeq⟩ := List.mem_map.mp hk
        obtain ⟨src', _, hkeq', hval⟩ := bp_lookup_value fetch sources [] k rfl
          (by rw [← hkeq]; exact List.mem_map_of_mem sourceKey hsrc)
        rw [← lookupByKey_isSome_iff]
        have hval' : lookupByKey k (buildPromises fetch sources) = some (fetch src') := hval
        rw [hval']
        rfl
    rw [← hsets, List.toFinset_card_of_nodup hnodup, List.length_map]
  · unfold getFileFromSources
    rw [List.length_map]
  · intro i hi
    have hgi : sources.get? i = some (sources.get ⟨i, hi⟩) := List.get?_eq_get hi
    have hgd : sources.getD i default = sources.get ⟨i, hi⟩ := by
      rw [List.getD_eq_getD_get?, hgi]
      rfl
    have hk : sourceKey (sources.get ⟨i, hi⟩) ∈ sources.map sourceKey :=
      List.mem_map_of_mem sourceKey (sources.get_mem i hi)
    obtain ⟨src, hsrc, hkeq, hval⟩ := bp_lookup_value fetch sources []
      (sourceKey (sources.get ⟨i, hi⟩)) rfl hk
    refine ⟨src, hsrc, by rw [hkeq, hgd], ?_⟩
    unfold getFileFromSources
    rw [List.get?_map, hgi]
    have hval2 : lookupByKey (sourceKey (sources.get ⟨i, hi⟩)) (buildPromises fetch sources) =
        some (fetch src) := hval
    show some ((lookupByKey (sourceKey (sources.get ⟨i, hi⟩))
        (buildPromises fetch sources)).getD (.json .null)) = some (fetch src)
    rw [hval2]
    rfl

/-- Fixture spec sharing url and format with witnessSpec but with a different
schema and id. -/
def witnessSpecDup : AnnotationSpec := ⟨"u", .cif, .residue, .first, none, "id2"⟩

theorem C4_witness :
    0 < ([witnessSpec, witnessSpecDup] : List AnnotationSpec).length ∧
    ∃ src ∈ ([witnessSpec, witnessSpecDup] : List AnnotationSpec),
      sourceKey src =
        sourceKey (([witnessSpec, witnessSpecDup] : List AnnotationSpec).getD 0 default) ∧
      (getFileFromSources (fun _ => .json .null) [witnessSpec, witnessSpecDup]).get? 0 =
        some ((fun _ => AnnotationFile.json .null) src) :=
  ⟨by decide,
   (C4_one_fetch_per_key (fun _ => .json .null) [witnessSpec, witnessSpecDup]).2.2.2.2 0
     (by decide)⟩

theorem dictInsert_keys {α : Type} (k : String) (v : α) (d : List (String × α)) :
    (dictInsert d k v).map Prod.fst =
      (if (lookupByKey k d).isSome then d.map Prod.fst else d.map Prod.fst ++ [k]) := by
  unfold dictInsert
  by_cases h : (lookupByKey k d).isSome
  · rw [if_pos h, if_pos h, List.map_map]
    apply List.map_congr_left
    intro kv _
    by_cases hk : kv.1 = k
    · simp [Function.comp, hk]
    · simp [Function.comp, hk]
  · rw [if_neg h, if_neg h, List.map_append]
    rfl

theorem lookup_map_replace {α : Type} (k : String) (v : α) :
    ∀ d : List (String × α), (lookupByKey k d).isSome →
    lookupByKey k (d.map (fun kv => if kv.1 = k then (k, v) else kv)) = some v := by
  intro d
  induction d with
  | nil => intro h; simp [lookupByKey] at h
  | cons hd tl ih =>
      intro h
      obtain ⟨k', v'⟩ := hd
      rw [List.map_cons]
      by_cases hk : k' = k
      · have hrepl : (if (k', v').1 = k then (k, v) else (k', v')) = (k, v) := by
          simp [hk]
        rw [hrepl, lookupByKey, if_pos rfl]
      · have hrepl : (if (k', v').1 = k then (k, v) else (k', v')) = (k', v') := by
          simp [hk]
        rw [hrepl, lookupByKey, if_neg hk]
        apply ih
        rw [lookupByKey, if_neg hk] at h
        exact h

theorem dictInsert_lookup_self {α : Type} (k : String) (v : α) (d : List (String × α)) :
    lookupByKey k (dictInsert d k v) = some v := by
  unfold dictInsert
  by_cases h : (lookupByKey k d).isSome
  · rw [if_pos h]
    exact lookup_map_replace k v d h
  · rw [if_neg h]
    exact lookupByKey_append_right k v d (Option.not_isSome_iff_eq_none.mp h)

theorem lookup_map_replace_other {α : Type} (k k' : String) (v : α) (hne : ¬ (k' = k)) :
    ∀ d : List (String × α),
    lookupByKey k' (d.map (fun kv => if kv.1 = k then (k, v) else kv)) =
      lookupByKey k' d := by
  intro d
  induction d with
  | nil => rfl
  | cons hd tl ih =>
      obtain ⟨k'', v''⟩ := hd
      rw [List.map_cons]
      by_cases hk : k'' = k
      · have hrepl : (if (k'', v'').1 = k then (k, v) else (k'', v'')) = (k, v) := by
          simp [hk]
        have hne2 : ¬ (k'' = k') := fun he => hne (by rw [← he, hk])
        rw [hrepl, lookupByKey, if_neg (fun he => hne he.symm), lookupByKey, if_neg hne2]
        exact ih
      · have hrepl : (if (k'', v'').1 = k then (k, v) else (k'', v'')) = (k'', v'') := by
          simp [hk]
        rw [hrepl, lookupByKey, lookupByKey]
        by_cases hk2 : k'' = k'
        · rw [if_pos hk2, if_pos hk2]
        · rw [if_neg hk2, if_neg hk2]
          exact ih

theorem dictInsert_lookup_other {α : Type} (k k' : String) (v : α) (hne : ¬ (k' = k))
    (d : List (String × α)) :
    lookupByKey k' (dictInsert d k v) = lookupByKey k' d := by
  unfold dictInsert
  by_cases h : (lookupByKey k d).isSome
  · rw [if_pos h]
    exact lookup_map_replace_other k k' v hne d
  · rw [if_neg h]
    cases hlk : lookupByKey k' d with
    | some w => exact lookupByKey_append_some k' w d _ hlk
    | none =>
        rw [lookupByKey_append_none k' d _ hlk, lookupByKey,
          if_neg (fun he : k = k' => hne he.symm)]
        rfl

theorem dictInsert_nodup {α : Type} (k : String) (v : α) (d : List (String × α))
    (h : (d.map Prod.fst).Nodup) : ((dictInsert d k v).map Prod.fst).Nodup := by
  rw [dictInsert_keys]
  by_cases hs : (lookupByKey k d).isSome
  · rw [if_pos hs]; exact h
  · rw [if_neg hs]
    apply List.Nodup.append h (List.nodup_singleton _)
    intro a ha hb
    rw [List.mem_singleton] at hb
    exact hs ((lookupByKey_isSome_iff k d).mpr (hb ▸ ha))

theorem fromSpecsLoop_nodup :
    ∀ (pairs : List (AnnotationSpec × AnnotationFile))
      (dict dict' : List (String × Annotation)),
    fromSpecsLoop pairs dict = .ok dict' → (dict.map Prod.fst).Nodup →
    (dict'.map Prod.fst).Nodup := by
  intro pairs
  induction pairs with
  | nil =>
      intro dict dict' hok h
      have hd : dict = dict' := Except.ok.inj hok
      exact hd ▸ h
  | cons p rest ih =>
      intro dict dict' hok h
      obtain ⟨pspec, pfile⟩ := p
      unfold fromSpecsLoop at hok
      cases hfs : Annotation.fromSpec pspec pfile with
      | error e => rw [hfs] at hok; exact Except.noConfusion hok
      | ok ann =>
          rw [hfs] at hok
          exact ih _ _ hok (dictInsert_nodup pspec.id ann dict h)

theorem fromSpecsLoop_preserve :
    ∀ (pairs : List (AnnotationSpec × AnnotationFile))
      (dict dict' : List (String × Annotation)),
    fromSpecsLoop pairs dict = .ok dict' →
    ∀ (key : String) (v : Annotation), lookupByKey key dict = some v →
    (∀ p ∈ pairs, ¬ (p.1.id = key)) → lookupByKey key dict' = some v := by
  intro pairs
  induction pairs with
  | nil =>
      intro dict dict' hok key v hv _
      have hd : dict = dict' := Except.ok.inj hok
      exact hd ▸ hv
  | cons p rest ih =>
      intro dict dict' hok key v hv hnot
      obtain ⟨pspec, pfile⟩ := p
      unfold fromSpecsLoop at hok
      cases hfs : Annotation.fromSpec pspec pfile with
      | error e => rw [hfs] at hok; exact Except.noConfusion hok
      | ok ann =>
          rw [hfs] at hok
          have hne : ¬ (key = pspec.id) := by
            intro he
            exact hnot (pspec, pfile) (List.mem_cons_self _ _) he.symm
          have hv' : lookupByKey key (dictInsert dict pspec.id ann) = some v := by
            rw [dictInsert_lookup_other pspec.id key ann hne dict]
            exact hv
          exact ih _ _ hok key v hv' (fun p hp => hnot p (List.mem_cons_of_mem _ hp))

theorem fromSpecsLoop_last :
    ∀ (pairs : List (AnnotationSpec × AnnotationFile))
      (dict dict' : List (String × Annotation)),
    fromSpecsLoop pairs dict = .ok dict' →
    ∀ (l1 : List (AnnotationSpec × AnnotationFile)) (spec : AnnotationSpec)
      (file : AnnotationFile) (l2 : List (AnnotationSpec × AnnotationFile)),
    pairs = l1 ++ (spec, file) :: l2 → (∀ p ∈ l2, ¬ (p.1.id = spec.id)) →
    ∃ ann, Annotation.fromSpec spec file = .ok ann ∧
      lookupByKey spec.id dict' = some ann := by
  intro pairs
  induction pairs with
  | nil =>
      intro dict dict' hok l1 spec file l2 hdec hlast
      exact absurd hdec (by cases l1 <;> simp)
  | cons p rest ih =>
      intro dict dict' hok l1 spec file l2 hdec hlast
      obtain ⟨pspec, pfile⟩ := p
      unfold fromSpecsLoop at hok
      cases hfs : Annotation.fromSpec pspec pfile with
      | error e => rw [hfs] at hok; exact Except.noConfusion hok
      | ok ann =>
          rw [hfs] at hok
          cases l1 with
          | nil =>
              rw [List.nil_append] at hdec
              injection hdec with h1 h2
              rw [Prod.mk.injEq] at h1
              obtain ⟨h1a, h1b⟩ := h1
              subst h1a
              subst h1b
              subst h2
              refine ⟨ann, hfs, ?_⟩
              exact fromSpecsLoop_preserve rest _ dict' hok pspec.id ann
                (dictInsert_lookup_self pspec.id ann dict) hlast
          | cons x l1' =>
              rw [List.cons_append] at hdec
              injection hdec with h1 h2
              exact ih _ _ hok l1' spec file l2 h2 hlast

theorem fromSpecsLoop_isSome :
    ∀ (pairs : List (AnnotationSpec × AnnotationFile))
      (dict dict' : List (String × Annotation)),
    fromSpecsLoop pairs dict = .ok dict' →
    ∀ id : String, (lookupByKey id dict').isSome ↔
      ((lookupByKey id dict).isSome ∨ id ∈ pairs.map (fun p => p.1.id)) := by
  intro pairs
  induction pairs with
  | nil =>
      intro dict dict' hok id
      have hd : dict = dict' := Except.ok.inj hok
      subst hd
      simp
  | cons p rest ih =>
      intro dict dict' hok id
      obtain ⟨pspec, pfile⟩ := p
      unfold fromSpecsLoop at hok
      cases hfs : Annotation.fromSpec pspec pfile with
      | error e => rw [hfs] at hok; exact Except.noConfusion hok
      | ok ann =>
          rw [hfs] at hok
          rw [ih _ _ hok id]
          rw [List.map_cons, List.mem_cons]
          by_cases hid : id = pspec.id
          · rw [hid, dictInsert_lookup_self pspec.id ann dict]
            simp
          · rw [dictInsert_lookup_other pspec.id id ann hid dict]
            constructor
            · rintro (h | h)
              · exact Or.inl h
              · exact Or.inr (Or.inr h)
            · rintro (h | h | h)
              · exact Or.inl h
              · exact absurd h hid
              · exact Or.inr h

/-- C10: the collection built by Annotations.fromSpecs is keyed by the
user-supplied spec id; its keys are pairwise distinct, an id is retrievable
exactly when some spec carries it, getAllAnnotations holds exactly one
Annotation per distinct id, and when several specs share an id the Annotation
stored under that id is the one built from the last such spec in list order
(earlier same-id Annotations are silently replaced). -/
theorem C10_last_spec_wins (fetch : AnnotationSpec → AnnotationFile)
    (specs : List AnnotationSpec) (anns : Annotations)
    (h : Annotations.fromSpecs fetch specs = .ok anns) :
    ((anns.dict.map Prod.fst).Nodup) ∧
    (∀ id : String, ( Annotations.getAnnotation anns id).isSome ↔
      id ∈ specs.map (fun s => s.id)) ∧
    (( Annotations.getAllAnnotations anns).length =
      (specs.map (fun s => s.id)).toFinset.card) ∧
    (∀ (l1 : List (AnnotationSpec × AnnotationFile)) (spec : AnnotationSpec)
        (file : AnnotationFile) (l2 : List (AnnotationSpec × AnnotationFile)),
      specs.zip (getFileFromSources fetch specs) = l1 ++ (spec, file) :: l2 →
      (∀ p ∈ l2, ¬ (p.1.id = spec.id)) →
      ∃ ann, Annotation.fromSpec spec file = .ok ann ∧
        Annotations.getAnnotation anns spec.id = some ann) := by
  unfold Annotations.fromSpecs at h
  cases hloop : fromSpecsLoop (specs.zip (getFileFromSources fetch specs)) [] with
  | error e => rw [hloop] at h; exact Except.noConfusion h
  | ok dict' =>
      rw [hloop] at h
      have hanns : (⟨dict'⟩ : Annotations) = anns := Except.ok.inj h
      subst hanns
      have hlen : specs.length ≤ (getFileFromSources fetch specs).length := by
        unfold getFileFromSources
        rw [List.length_map]
      have hids : (specs.zip (getFileFromSources fetch specs)).map (fun p => p.1.id) =
          specs.map (fun s => s.id) := by
        have h1 : (specs.zip (getFileFromSources fetch specs)).map (fun p => p.1.id) =
            ((specs.zip (getFileFromSources fetch specs)).map Prod.fst).map
              (fun s => s.id) := by
          rw [List.map_map]
          rfl
        rw [h1, List.map_fst_zip _ _ hlen]
      have hnodup := fromSpecsLoop_nodup _ _ _ hloop (by simp)
      refine ⟨hnodup, ?_, ?_, ?_⟩
      · intro id
        have := fromSpecsLoop_isSome _ _ _ hloop id
        rw [hids] at this
        have hempty : (lookupByKey id ([] : List (String × Annotation))).isSome = false :=
          rfl
        rw [hempty] at this
        simpa using this
      · have hsets : (dict'.map Prod.fst).toFinset =
            (specs.map (fun s => s.id)).toFinset := by
          apply Finset.ext
          intro id
          rw [List.mem_toFinset, List.mem_toFinset, ← lookupByKey_isSome_iff]
          have := fromSpecsLoop_isSome _ _ _ hloop id
          rw [hids] at this
          have hempty : (lookupByKey id ([] : List (String × Annotation))).isSome = false :=
            rfl
          rw [hempty] at this
          rw [this]
          simp
        have hcards : ( Annotations.getAllAnnotations ⟨dict'⟩).length = dict'.length := by
          unfold Annotations.getAllAnnotations
          rw [List.length_map]
        rw [hcards, ← hsets, List.toFinset_card_of_nodup hnodup, List.length_map]
      · intro l1 spec file l2 hdec hlast
        exact fromSpecsLoop_last _ _ _ hloop l1 spec file l2 hdec hlast

/-- Fixture spec with id id1 and schema chain, JSON format. -/
def witnessSpecA : AnnotationSpec := ⟨"u", .json, .chain, .first, none, "id1"⟩

/-- Fixture spec sharing id id1 but with another url and schema. -/
def witnessSpecB : AnnotationSpec := ⟨"u2", .json, .residue, .first, none, "id1"⟩

/-- Fixture fetch function returning an empty JSON array for every source. -/
def witnessFetch : AnnotationSpec → AnnotationFile := fun _ => .json (.arr [])

/-- The collection fromSpecs builds for the two same-id fixture specs: the
later spec's Annotation is the one stored. -/
def witnessAnns : Annotations := ⟨[("id1", ⟨.json (.arr []), .residue, []⟩)]⟩

theorem C10_witness :
    ( Annotations.fromSpecs witnessFetch [witnessSpecA, witnessSpecB] = .ok witnessAnns) ∧
    ∃ ann, Annotation.fromSpec witnessSpecB (.json (.arr [])) = .ok ann ∧
      Annotations.getAnnotation witnessAnns witnessSpecB.id = some ann :=
  ⟨rfl,
   (C10_last_spec_wins witnessFetch [witnessSpecA, witnessSpecB] witnessAnns rfl).2.2.2
     [(witnessSpecA, .json (.arr []))] witnessSpecB (.json (.arr [])) [] rfl
     (by intro p hp; exact absurd hp (List.not_mem_nil p))⟩
